import Mathlib

/-!
Verification development for the case-conversion utilities of this repository
(`toCamelCase` and `toDotCase` in `refined_prompt.js`, `toKebabCase` in the
unnamed kebab-case module).  The JavaScript sources are embedded shallowly:
strings are `List Char` over Unicode scalar values, and each function is
translated clause by clause.

Modelling boundaries (documented per definition below):
* `String.prototype.normalize('NFC')` is modelled as the identity map; the
  modelled character universe (ASCII, Latin-1 letters, Arabic-Indic digits)
  is closed under NFC and inputs are taken to be composed.
* The Unicode property classes `\p{L}` and `\p{N}` used by the punctuation
  filter, and the `toLowerCase`/`toUpperCase` case maps, are modelled on the
  code points exercised in this development (ASCII plus the Latin-1 block
  plus the Arabic-Indic digits); code points outside this universe are
  outside the model.
* `toLocaleLowerCase`/`toLocaleUpperCase` coincide with the default case
  maps on the modelled universe and are modelled by the same functions.
-/

/-- ASCII uppercase test, `c >= 'A' && c <= 'Z'` in the sources
(65 = 'A', 90 = 'Z'). -/
def isAsciiUpper (c : Char) : Bool := decide (65 ≤ c.toNat ∧ c.toNat ≤ 90)

/-- ASCII lowercase test, `c >= 'a' && c <= 'z'` in the sources
(97 = 'a', 122 = 'z'). -/
def isAsciiLower (c : Char) : Bool := decide (97 ≤ c.toNat ∧ c.toNat ≤ 122)

/-- ASCII digit test, `c >= '0' && c <= '9'` in the sources
(48 = '0', 57 = '9'). -/
def isAsciiDigit (c : Char) : Bool := decide (48 ≤ c.toNat ∧ c.toNat ≤ 57)

/-- A character in one of the three ASCII ranges consulted by the splitters. -/
def isAsciiAlnum (c : Char) : Bool := isAsciiUpper c || isAsciiLower c || isAsciiDigit c

/-- The character class `\s` of JavaScript regular expressions: tab through
carriage return (9-13), space (32), no-break space (160), ogham space mark
(5760), the general punctuation spaces (8192-8202), line and paragraph
separators (8232, 8233), narrow no-break space (8239), medium mathematical
space (8287), ideographic space (12288) and the byte-order mark (65279). -/
def isJsSpace (c : Char) : Bool :=
  decide (9 ≤ c.toNat ∧ c.toNat ≤ 13) || decide (c.toNat = 32) ||
  decide (c.toNat = 160) || decide (c.toNat = 5760) ||
  decide (8192 ≤ c.toNat ∧ c.toNat ≤ 8202) || decide (c.toNat = 8232) ||
  decide (c.toNat = 8233) || decide (c.toNat = 8239) || decide (c.toNat = 8287) ||
  decide (c.toNat = 12288) || decide (c.toNat = 65279)

/-- The separator class `[\s_\-./\\]` shared by all three converters:
whitespace, underscore (95), hyphen (45), period (46), forward slash (47)
and backslash (92). -/
def isSepChar (c : Char) : Bool :=
  isJsSpace c || decide (c.toNat = 95) || decide (c.toNat = 45) ||
  decide (c.toNat = 46) || decide (c.toNat = 47) || decide (c.toNat = 92)

/-- Model of the Unicode letter class `\p{L}` restricted to the modelled
universe: the ASCII letters plus the Latin-1 letters 192-255 without the
multiplication sign (215) and division sign (247). -/
def isLetterLike (c : Char) : Bool :=
  isAsciiUpper c || isAsciiLower c ||
  (decide (192 ≤ c.toNat ∧ c.toNat ≤ 255) && !decide (c.toNat = 215) &&
    !decide (c.toNat = 247))

/-- Model of the Unicode number class `\p{N}` restricted to the modelled
universe: the ASCII digits plus the Arabic-Indic digits 1632-1641. -/
def isNumberLike (c : Char) : Bool :=
  isAsciiDigit c || decide (1632 ≤ c.toNat ∧ c.toNat ≤ 1641)

/-- Characters kept by the punctuation filter
`replace(/[^\p{L}\p{N}\p{Zs}\p{Emoji_Presentation}\p{Extended_Pictographic} ]+/gu, '')`:
letters, numbers and the space character.  The space separators of `\p{Zs}`
other than 32 and the emoji ranges lie outside the modelled universe (every
`\p{Zs}` code point other than 32 is also `\s` and has already been replaced
by a plain space when the filter runs). -/
def keepChar (c : Char) : Bool :=
  isLetterLike c || isNumberLike c || decide (c.toNat = 32)

/-- Character-level model of `String.prototype.toLowerCase`: ASCII uppercase
and the Latin-1 uppercase letters 192-222 (without 215) move down by 32 code
points, everything else is fixed.  On the modelled universe this agrees with
the JavaScript string-level map. -/
def jsLowerChar (c : Char) : Char :=
  if isAsciiUpper c then Char.ofNat (c.toNat + 32)
  else if decide (192 ≤ c.toNat ∧ c.toNat ≤ 222) && !decide (c.toNat = 215) then
    Char.ofNat (c.toNat + 32)
  else c

/-- Character-level model of `String.prototype.toUpperCase`: ASCII lowercase
and the Latin-1 lowercase letters 224-254 (without 247) move up by 32 code
points, everything else is fixed.  The two Latin-1 letters whose uppercase
leaves the block (223, 255) are fixed by the model. -/
def jsUpperChar (c : Char) : Char :=
  if isAsciiLower c then Char.ofNat (c.toNat - 32)
  else if decide (224 ≤ c.toNat ∧ c.toNat ≤ 254) && !decide (c.toNat = 247) then
    Char.ofNat (c.toNat - 32)
  else c

/-- `value.toLowerCase()` on a token. -/
def lowerStr (w : List Char) : List Char := w.map jsLowerChar

/-- The `upperFirst` helper of `toCamelCase`: uppercase the first character
and lowercase the remainder. -/
def upperFirst (w : List Char) : List Char :=
  match w with
  | [] => []
  | c :: cs => jsUpperChar c :: lowerStr cs

/-- The pure-number test `/^\d+$/` applied to raw tokens (ASCII digits only,
one or more). -/
def isAllDigits (t : List Char) : Bool := !t.isEmpty && t.all isAsciiDigit

/-- Boundary predicate of the kebab-case and dot-case splitters, from
`(aIsLower && bIsUpper) || (aIsDigit && !bIsDigit) || (!aIsDigit && bIsDigit)`. -/
def kdBoundary (a b : Char) : Bool :=
  (isAsciiLower a && isAsciiUpper b) ||
  (isAsciiDigit a && !isAsciiDigit b) || (!isAsciiDigit a && isAsciiDigit b)

/-- Boundary predicate of the camel-case splitter: the kebab/dot rules plus
the acronym rule `prevIsUpper && currIsUpper && next && next is lowercase`,
where `next` is the character after `curr` (`none` at end of token,
matching the falsy empty string of the source). -/
def camelBoundary (a b : Char) (n : Option Char) : Bool :=
  (isAsciiLower a && isAsciiUpper b) ||
  ((isAsciiDigit a && !isAsciiDigit b) || (!isAsciiDigit a && isAsciiDigit b)) ||
  (isAsciiUpper a && isAsciiUpper b &&
    (match n with
     | some d => isAsciiLower d
     | none => false))

namespace Kebab

/-- Loop of `splitOnCaseAndNumberTransitions` (kebab module, lines 36-56):
`pending` holds the current segment reversed, `prev` is the previous
character; a boundary before `b` closes the segment. -/
def splitGo (pending : List Char) (prev : Char) : List Char → List (List Char)
  | [] => [pending.reverse]
  | b :: rest =>
    if kdBoundary prev b then pending.reverse :: splitGo [b] b rest
    else splitGo (b :: pending) b rest

/-- `splitOnCaseAndNumberTransitions` of the kebab module: split a token at
case and digit transitions.  An empty token yields the single empty segment
`parts.push(token.slice(0))` produces. -/
def splitOnCaseAndNumberTransitions (t : List Char) : List (List Char) :=
  match t with
  | [] => [[]]
  | c :: cs => splitGo [c] c cs

end Kebab

namespace Dot

/-- Loop of `splitOnCaseAndNumberTransitions` (dot-case section of
`refined_prompt.js`, lines 323-343); the code is identical to the kebab
module's splitter. -/
def splitGo (pending : List Char) (prev : Char) : List Char → List (List Char)
  | [] => [pending.reverse]
  | b :: rest =>
    if kdBoundary prev b then pending.reverse :: splitGo [b] b rest
    else splitGo (b :: pending) b rest

/-- `splitOnCaseAndNumberTransitions` of the dot-case converter. -/
def splitOnCaseAndNumberTransitions (t : List Char) : List (List Char) :=
  match t with
  | [] => [[]]
  | c :: cs => splitGo [c] c cs

end Dot

namespace Camel

/-- Loop of `splitOnCaseAndNumberTransitions` (camel section of
`refined_prompt.js`, lines 91-139); `rest.head?` is the lookahead `next`. -/
def splitGo (pending : List Char) (prev : Char) : List Char → List (List Char)
  | [] => [pending.reverse]
  | b :: rest =>
    if camelBoundary prev b rest.head? then pending.reverse :: splitGo [b] b rest
    else splitGo (b :: pending) b rest

/-- `splitOnCaseAndNumberTransitions(token, preserveAcronyms)` of the camel
converter.  The `preserveAcronyms` parameter is declared by the source but
never read in the body. -/
def splitOnCaseAndNumberTransitions (t : List Char) (preserveAcronyms : Bool) :
    List (List Char) :=
  match t with
  | [] => [[]]
  | c :: cs => splitGo [c] c cs

end Camel

/-- `input.normalize('NFC')`, modelled as the identity map: the modelled
character universe is closed under NFC and inputs are taken to be in
composed form. -/
def nfcNormalize (s : List Char) : List Char := s

/-- Character-level model of `stripDiacritics` (NFD decomposition, removal
of `\p{Diacritic}`, NFC recomposition) on the Latin-1 block: each accented
Latin-1 letter decomposes to its ASCII base letter plus a combining mark
that is then removed.  The Latin-1 letters without a canonical
decomposition (198, 208, 215, 216, 222, 223, 230, 240, 247, 248, 254) are
fixed. -/
def stripDiaChar (c : Char) : Char :=
  if 192 ≤ c.toNat ∧ c.toNat ≤ 197 then 'A'
  else if c.toNat = 199 then 'C'
  else if 200 ≤ c.toNat ∧ c.toNat ≤ 203 then 'E'
  else if 204 ≤ c.toNat ∧ c.toNat ≤ 207 then 'I'
  else if c.toNat = 209 then 'N'
  else if 210 ≤ c.toNat ∧ c.toNat ≤ 214 then 'O'
  else if 217 ≤ c.toNat ∧ c.toNat ≤ 220 then 'U'
  else if c.toNat = 221 then 'Y'
  else if 224 ≤ c.toNat ∧ c.toNat ≤ 229 then 'a'
  else if c.toNat = 231 then 'c'
  else if 232 ≤ c.toNat ∧ c.toNat ≤ 235 then 'e'
  else if 236 ≤ c.toNat ∧ c.toNat ≤ 239 then 'i'
  else if c.toNat = 241 then 'n'
  else if 242 ≤ c.toNat ∧ c.toNat ≤ 246 then 'o'
  else if 249 ≤ c.toNat ∧ c.toNat ≤ 252 then 'u'
  else if c.toNat = 253 ∨ c.toNat = 255 then 'y'
  else c

/-- `stripDiacritics` of the sources, restricted to the modelled universe
(no standalone combining marks occur there, so the map is per character). -/
def stripDiacritics (s : List Char) : List Char := s.map stripDiaChar

/-- `working.replace(/[\s_\-./\\]+/g, ' ')`: every maximal run of separator
characters becomes a single space. -/
def collapseSeparators : List Char → List Char
  | [] => []
  | c :: cs =>
    let rest := collapseSeparators cs
    if isSepChar c then
      if rest.head? = some ' ' then rest else ' ' :: rest
    else c :: rest

/-- `working.replace(/[^\p{L}\p{N}\p{Zs}..emoji.. ]+/gu, '')`: delete every
character not kept by the filter. -/
def filterKeep (s : List Char) : List Char := s.filter keepChar

/-- `working.trim()`: remove leading and trailing whitespace. -/
def trimSpaces (s : List Char) : List Char :=
  ((s.dropWhile isJsSpace).reverse.dropWhile isJsSpace).reverse

/-- `working.replace(/\s+/g, ' ')`: every maximal run of whitespace becomes
a single space. -/
def collapseSpaceRuns : List Char → List Char
  | [] => []
  | c :: cs =>
    let rest := collapseSpaceRuns cs
    if isJsSpace c then
      if rest.head? = some ' ' then rest else ' ' :: rest
    else c :: rest

/-- `working.split(' ')`: split at every single space character. -/
def splitOnSpace : List Char → List (List Char)
  | [] => [[]]
  | c :: cs =>
    match splitOnSpace cs with
    | [] => [[c]]
    | t :: ts => if c = ' ' then [] :: t :: ts else (c :: t) :: ts

/-- The normalization pipeline shared verbatim by all three converters:
NFC normalization, optional diacritic stripping, separator collapsing,
punctuation filtering, trimming and whitespace collapsing. -/
def preprocess (nd : Bool) (s : List Char) : List Char :=
  let w0 := nfcNormalize s
  let w1 := if nd then stripDiacritics w0 else w0
  collapseSpaceRuns (trimSpaces (filterKeep (collapseSeparators w1)))

/-- The raw (separator-delimited) tokens: the sources return early when the
preprocessed text is empty and otherwise split on spaces. -/
def rawTokens (nd : Bool) (s : List Char) : List (List Char) :=
  let w := preprocess nd s
  if w.isEmpty then [] else splitOnSpace w

namespace Kebab

/-- Options of `toKebabCase` after validation (the locale only selects the
case-folding function, which the model represents by the default map). -/
structure Options where
  normalizeDiacritics : Bool
  locale : Option (List Char)
  preserveNumbers : Bool
deriving DecidableEq

/-- Token-processing loop of `toKebabCase` (lines 96-112): empty tokens are
skipped, pure-number tokens are kept exactly when `preserveNumbers`, any
other token is split at transitions and its non-empty parts are pushed
lowercased. -/
def buildWords (toks : List (List Char)) (preserveNumbers : Bool) :
    List (List Char) :=
  toks.flatMap fun t =>
    if t.isEmpty then []
    else if isAllDigits t then (if preserveNumbers then [t] else [])
    else ((splitOnCaseAndNumberTransitions t).filter (fun p => !p.isEmpty)).map lowerStr

/-- `toKebabCase` on an already-validated string input: preprocess,
tokenize and join with hyphens. -/
def toKebabCase (s : List Char) (o : Options) : List Char :=
  List.intercalate ['-']
    (buildWords (rawTokens o.normalizeDiacritics s) o.preserveNumbers)

end Kebab

namespace Dot

/-- Options of `toDotCase` after validation (same record as kebab). -/
structure Options where
  normalizeDiacritics : Bool
  locale : Option (List Char)
  preserveNumbers : Bool
deriving DecidableEq

/-- Token-processing loop of `toDotCase` (lines 383-399 of
`refined_prompt.js`); the code is identical to the kebab module's loop. -/
def buildWords (toks : List (List Char)) (preserveNumbers : Bool) :
    List (List Char) :=
  toks.flatMap fun t =>
    if t.isEmpty then []
    else if isAllDigits t then (if preserveNumbers then [t] else [])
    else ((splitOnCaseAndNumberTransitions t).filter (fun p => !p.isEmpty)).map lowerStr

/-- `toDotCase` on an already-validated string input: preprocess, tokenize
and join with periods. -/
def toDotCase (s : List Char) (o : Options) : List Char :=
  List.intercalate ['.']
    (buildWords (rawTokens o.normalizeDiacritics s) o.preserveNumbers)

end Dot

namespace Camel

/-- Options of `toCamelCase` after validation. -/
structure Options where
  preserveAcronyms : Bool
  locale : Option (List Char)
  normalizeDiacritics : Bool
  preserveNumbers : Bool
  pascalCase : Bool
deriving DecidableEq

/-- Token-processing loop of `toCamelCase` (lines 220-240): empty tokens
are skipped, pure-number tokens are kept exactly when `preserveNumbers`,
any other token is split at transitions (the `preserveAcronyms` argument is
passed through) and its non-empty parts are pushed unchanged. -/
def buildWords (toks : List (List Char)) (preserveAcronyms preserveNumbers : Bool) :
    List (List Char) :=
  toks.flatMap fun t =>
    if t.isEmpty then []
    else if isAllDigits t then (if preserveNumbers then [t] else [])
    else (splitOnCaseAndNumberTransitions t preserveAcronyms).filter (fun p => !p.isEmpty)

/-- The acronym test `/^[A-Z0-9]+$/.test(w) && w.length > 1` of the
assembly stage. -/
def isAcronym (w : List Char) : Bool :=
  decide (2 ≤ w.length) && w.all (fun c => isAsciiUpper c || isAsciiDigit c)

/-- One entry of `normalizedWords` (lines 255-259): keep acronyms when
requested, lowercase everything else. -/
def normalizeWord (pa : Bool) (w : List Char) : List Char :=
  if pa && isAcronym w then w else lowerStr w

/-- The rendering of word `w` at position `k` in the assembly loop
(lines 263-282): the first word keeps acronym pass-through, then pascal
casing decides its capitalization; later words keep acronym pass-through
and are otherwise capitalized. -/
def renderWord (pa pc : Bool) (k : Nat) (w : List Char) : List Char :=
  if k = 0 then
    if pa && isAcronym w then w
    else if pc then upperFirst (normalizeWord pa w)
    else normalizeWord pa w
  else
    if pa && isAcronym w then w
    else upperFirst (normalizeWord pa w)

/-- The assembly stage: concatenate the renderings in order. -/
def assemble (ws : List (List Char)) (pa pc : Bool) : List Char :=
  (ws.enum.map (fun p => renderWord pa pc p.1 p.2)).flatten

/-- `toCamelCase` on an already-validated string input. -/
def toCamelCase (s : List Char) (o : Options) : List Char :=
  assemble
    (buildWords (rawTokens o.normalizeDiacritics s) o.preserveAcronyms o.preserveNumbers)
    o.preserveAcronyms o.pascalCase

end Camel

/-- A JavaScript value sitting in an options field: missing key, undefined,
null, boolean, string, or any other value (carrying its truthiness, which
is all `Boolean(x)` and `if (x)` consult). -/
inductive JsOptVal where
  | absent
  | undef
  | nullv
  | boolv (b : Bool)
  | strv (s : List Char)
  | otherv (truthy : Bool)
deriving DecidableEq

/-- `Object.assign(defaults, options)` on one field: a missing key keeps
the default, any present value (including `undefined`) overrides it. -/
def resolveOpt (v dflt : JsOptVal) : JsOptVal :=
  match v with
  | .absent => dflt
  | w => w

/-- JavaScript truthiness of an option value. -/
def jsTruthy : JsOptVal → Bool
  | .absent => false
  | .undef => false
  | .nullv => false
  | .boolv b => b
  | .strv s => !s.isEmpty
  | .otherv t => t

/-- `typeof v === 'boolean'`. -/
def isBoolVal : JsOptVal → Bool
  | .boolv _ => true
  | _ => false

/-- `v != null && typeof v !== 'string'`: the locale values the sources
reject. -/
def isBadLocaleVal : JsOptVal → Bool
  | .undef => false
  | .nullv => false
  | .strv _ => false
  | .boolv _ => true
  | .otherv _ => true
  | .absent => false

/-- The `TypeError` values the converters raise. -/
inductive JsErr where
  | typeError (msg : String)
deriving DecidableEq

/-- The raw options object passed by the caller, one `JsOptVal` per
documented key (extra keys are ignored by the sources). -/
structure JsOptionsObj where
  preserveAcronyms : JsOptVal
  locale : JsOptVal
  normalizeDiacritics : JsOptVal
  throwOnInvalid : JsOptVal
  preserveNumbers : JsOptVal
  pascalCase : JsOptVal
deriving DecidableEq

/-- A call with no options (or `options || {}` with an empty object). -/
def absentOptions : JsOptionsObj :=
  ⟨.absent, .absent, .absent, .absent, .absent, .absent⟩

/-- An element of an array input: null/undefined, a string, or any other
value carrying its `String(p)` rendering. -/
inductive JsElemVal where
  | nullish
  | strv (s : List Char)
  | otherv (shown : List Char)
deriving DecidableEq

/-- `part == null ? '' : (typeof part !== 'string' ? String(part) : part)`,
the per-element conversion used by the array branch of every converter. -/
def elemToStr : JsElemVal → List Char
  | .nullish => []
  | .strv s => s
  | .otherv r => r

/-- The primary input: null/undefined, a string, an array, or any other
value. -/
inductive JsInputVal where
  | nullish
  | strv (s : List Char)
  | arrv (elems : List JsElemVal)
  | otherv
deriving DecidableEq

/-- `array.map(convert).join(' ')`. -/
def joinWithSpace (xs : List (List Char)) : List Char :=
  List.intercalate [' '] xs

/-- Validation of a boolean option that may throw: a boolean passes, any
other kind throws when `throwOnInvalid` is truthy and is otherwise coerced
with `Boolean(...)` (that is, to its truthiness). -/
def checkBoolOpt (toi : Bool) (v : JsOptVal) (msg : String) : Except JsErr Bool :=
  match v with
  | .boolv b => .ok b
  | w => if toi then .error (.typeError msg) else .ok (jsTruthy w)

/-- Validation of the locale option: `null`/`undefined` pass (the effective
locale stays absent), a string passes, and any other kind throws when
`throwOnInvalid` is truthy and is otherwise replaced by `undefined`. -/
def checkLocaleOpt (toi : Bool) (v : JsOptVal) : Except JsErr (Option (List Char)) :=
  match v with
  | .undef => .ok none
  | .nullv => .ok none
  | .strv s => .ok (some s)
  | .absent => .ok none
  | _ => if toi then .error (.typeError ("Option \"locale\" must be a string")) else .ok none

/-- `Boolean(v)` coercion of an option that never throws. -/
def coerceBool (v : JsOptVal) : Bool :=
  match v with
  | .boolv b => b
  | w => jsTruthy w

/-- Input validation shared by the three converters: null/undefined and
non-string non-array inputs throw when `throwOnInvalid` is truthy and
otherwise short-circuit to the empty result (`none`); an array is joined
with single spaces after converting each element to text; a string passes
through. -/
def inputToText (toi : Bool) (i : JsInputVal) : Except JsErr (Option (List Char)) :=
  match i with
  | .nullish =>
    if toi then .error (.typeError ("Input is null or undefined")) else .ok none
  | .arrv es => .ok (some (joinWithSpace (es.map elemToStr)))
  | .strv s => .ok (some s)
  | .otherv =>
    if toi then .error (.typeError ("Input must be a string or an array of strings"))
    else .ok none

namespace Camel

/-- The full `toCamelCase` entry point (lines 147-285): defaulting via
`Object.assign`, option validation in source order (`preserveAcronyms`,
`locale`, `normalizeDiacritics` may throw; `throwOnInvalid`,
`preserveNumbers`, `pascalCase` are silently coerced), then input
validation, then the conversion.  `throwOnInvalid` is read by truthiness
before its own coercion, and `Boolean(v)` equals the truthiness of `v`, so
a single boolean `toi` is faithful. -/
def toCamelCaseJS (i : JsInputVal) (o : JsOptionsObj) : Except JsErr (List Char) :=
  let toi := jsTruthy (resolveOpt o.throwOnInvalid (.boolv false))
  match checkBoolOpt toi (resolveOpt o.preserveAcronyms (.boolv false))
      ("Option \"preserveAcronyms\" must be a boolean") with
  | .error e => .error e
  | .ok pa =>
    match checkLocaleOpt toi (resolveOpt o.locale .undef) with
    | .error e => .error e
    | .ok loc =>
      match checkBoolOpt toi (resolveOpt o.normalizeDiacritics (.boolv false))
          ("Option \"normalizeDiacritics\" must be a boolean") with
      | .error e => .error e
      | .ok nd =>
        let pn := coerceBool (resolveOpt o.preserveNumbers (.boolv true))
        let pc := coerceBool (resolveOpt o.pascalCase (.boolv false))
        match inputToText toi i with
        | .error e => .error e
        | .ok none => .ok []
        | .ok (some s) => .ok (toCamelCase s ⟨pa, loc, nd, pn, pc⟩)

end Camel

namespace Kebab

/-- The full `toKebabCase` entry point (lines 58-115): only the locale
option can throw; `normalizeDiacritics`, `throwOnInvalid` and
`preserveNumbers` are silently coerced; then input validation, then the
conversion. -/
def toKebabCaseJS (i : JsInputVal) (o : JsOptionsObj) : Except JsErr (List Char) :=
  let toi := jsTruthy (resolveOpt o.throwOnInvalid (.boolv false))
  match checkLocaleOpt toi (resolveOpt o.locale .undef) with
  | .error e => .error e
  | .ok loc =>
    let nd := coerceBool (resolveOpt o.normalizeDiacritics (.boolv false))
    let pn := coerceBool (resolveOpt o.preserveNumbers (.boolv true))
    match inputToText toi i with
    | .error e => .error e
    | .ok none => .ok []
    | .ok (some s) => .ok (toKebabCase s ⟨nd, loc, pn⟩)

end Kebab

namespace Dot

/-- The full `toDotCase` entry point (lines 345-402 of
`refined_prompt.js`); the validation code is identical to the kebab
module's. -/
def toDotCaseJS (i : JsInputVal) (o : JsOptionsObj) : Except JsErr (List Char) :=
  let toi := jsTruthy (resolveOpt o.throwOnInvalid (.boolv false))
  match checkLocaleOpt toi (resolveOpt o.locale .undef) with
  | .error e => .error e
  | .ok loc =>
    let nd := coerceBool (resolveOpt o.normalizeDiacritics (.boolv false))
    let pn := coerceBool (resolveOpt o.preserveNumbers (.boolv true))
    match inputToText toi i with
    | .error e => .error e
    | .ok none => .ok []
    | .ok (some s) => .ok (toDotCase s ⟨nd, loc, pn⟩)

end Dot

/-- The payload of a successful call, the empty string for a raised error
(used to state output invariants uniformly over all calls). -/
def resultOrEmpty : Except JsErr (List Char) → List Char
  | .ok v => v
  | .error _ => []

/-- `e.isOk` for the `Except` results of the converters. -/
def exceptIsOk : Except JsErr (List Char) → Bool
  | .ok _ => true
  | .error _ => false

/-- Default validated options of `toKebabCase` / `toDotCase`
(`normalizeDiacritics=false`, no locale, `preserveNumbers=true`). -/
def defaultKdOptions : Kebab.Options := ⟨false, none, true⟩

/-- Default validated options of `toDotCase`. -/
def defaultDotOptions : Dot.Options := ⟨false, none, true⟩

/-- Default validated options of `toCamelCase`. -/
def defaultCamelOptions : Camel.Options := ⟨false, none, false, true, false⟩

/-- Replace every hyphen by a period (the joiner renaming between kebab
and dot outputs). -/
def replaceDashDot (s : List Char) : List Char :=
  s.map (fun c => if c = '-' then '.' else c)

/-- The effective `throwOnInvalid` switch: truthiness of the value after
`Object.assign` defaulting. -/
def effThrow (o : JsOptionsObj) : Bool :=
  jsTruthy (resolveOpt o.throwOnInvalid (.boolv false))

/-- The camel converter's throwing bad-option conditions: a non-boolean
`preserveAcronyms` or `normalizeDiacritics`, or a locale that is neither
nullish nor a string.  (`throwOnInvalid`, `preserveNumbers` and
`pascalCase` are silently coerced by the source and never throw.) -/
def camelThrowingBadOption (o : JsOptionsObj) : Bool :=
  !isBoolVal (resolveOpt o.preserveAcronyms (.boolv false)) ||
  isBadLocaleVal (resolveOpt o.locale .undef) ||
  !isBoolVal (resolveOpt o.normalizeDiacritics (.boolv false))

/-- The kebab/dot converters' only throwing bad-option condition: a locale
that is neither nullish nor a string. -/
def kdThrowingBadOption (o : JsOptionsObj) : Bool :=
  isBadLocaleVal (resolveOpt o.locale .undef)

/-- Inputs rejected by the converters' input validation: null/undefined
and non-string non-array values. -/
def isBadInput : JsInputVal → Bool
  | .nullish => true
  | .otherv => true
  | .strv _ => false
  | .arrv _ => false

/-- Every character of the string is ASCII. -/
def allAscii (s : List Char) : Bool := s.all (fun c => decide (c.toNat ≤ 127))

theorem char_toNat_ofNat_of_lt (n : Nat) (h : n < 55296) : (Char.ofNat n).toNat = n := by
  have hv : n.isValidChar := Or.inl h
  simp only [Char.ofNat]
  rw [dif_pos hv]
  rfl

theorem char_eq_of_toNat_eq {a b : Char} (h : a.toNat = b.toNat) : a = b := by
  apply Char.eq_of_val_eq
  apply UInt32.eq_of_val_eq
  exact Fin.eq_of_val_eq h

theorem char_eq_iff_toNat {a b : Char} : a = b ↔ a.toNat = b.toNat :=
  ⟨fun h => by rw [h], char_eq_of_toNat_eq⟩

theorem jsLowerChar_spec (c : Char) :
    (jsLowerChar c = c ∧ ¬(65 ≤ c.toNat ∧ c.toNat ≤ 90) ∧
      ¬(192 ≤ c.toNat ∧ c.toNat ≤ 222 ∧ c.toNat ≠ 215)) ∨
    ((jsLowerChar c).toNat = c.toNat + 32 ∧
      (65 ≤ c.toNat ∧ c.toNat ≤ 90 ∨ 192 ≤ c.toNat ∧ c.toNat ≤ 222 ∧ c.toNat ≠ 215)) := by
  unfold jsLowerChar
  split
  · next h =>
    simp only [isAsciiUpper, decide_eq_true_eq] at h
    right
    exact ⟨char_toNat_ofNat_of_lt _ (by omega), Or.inl h⟩
  · next h =>
    simp only [isAsciiUpper, decide_eq_true_eq] at h
    split
    · next h2 =>
      simp only [Bool.and_eq_true, Bool.not_eq_true', decide_eq_true_eq,
        decide_eq_false_iff_not] at h2
      right
      exact ⟨char_toNat_ofNat_of_lt _ (by omega), Or.inr ⟨h2.1.1, h2.1.2, h2.2⟩⟩
    · next h2 =>
      simp only [Bool.and_eq_true, Bool.not_eq_true', decide_eq_true_eq,
        decide_eq_false_iff_not, not_and] at h2
      left
      refine ⟨rfl, h, ?_⟩
      rintro ⟨ha, hb, hc⟩
      rcases Decidable.em (c.toNat = 215) with h215 | h215
      · exact hc h215
      · have := h2 ⟨ha, hb⟩
        simp [h215] at this

theorem jsUpperChar_spec (c : Char) :
    (jsUpperChar c = c ∧ ¬(97 ≤ c.toNat ∧ c.toNat ≤ 122) ∧
      ¬(224 ≤ c.toNat ∧ c.toNat ≤ 254 ∧ c.toNat ≠ 247)) ∨
    ((jsUpperChar c).toNat = c.toNat - 32 ∧
      (97 ≤ c.toNat ∧ c.toNat ≤ 122 ∨ 224 ≤ c.toNat ∧ c.toNat ≤ 254 ∧ c.toNat ≠ 247)) := by
  unfold jsUpperChar
  split
  · next h =>
    simp only [isAsciiLower, decide_eq_true_eq] at h
    right
    exact ⟨char_toNat_ofNat_of_lt _ (by omega), Or.inl h⟩
  · next h =>
    simp only [isAsciiLower, decide_eq_true_eq] at h
    split
    · next h2 =>
      simp only [Bool.and_eq_true, Bool.not_eq_true', decide_eq_true_eq,
        decide_eq_false_iff_not] at h2
      right
      exact ⟨char_toNat_ofNat_of_lt _ (by omega), Or.inr ⟨h2.1.1, h2.1.2, h2.2⟩⟩
    · next h2 =>
      simp only [Bool.and_eq_true, Bool.not_eq_true', decide_eq_true_eq,
        decide_eq_false_iff_not, not_and] at h2
      left
      refine ⟨rfl, h, ?_⟩
      rintro ⟨ha, hb, hc⟩
      rcases Decidable.em (c.toNat = 247) with h247 | h247
      · exact hc h247
      · have := h2 ⟨ha, hb⟩
        simp [h247] at this

theorem isAsciiDigit_jsLowerChar (c : Char) : isAsciiDigit (jsLowerChar c) = isAsciiDigit c := by
  rcases jsLowerChar_spec c with ⟨he, -, -⟩ | ⟨ht, hr⟩
  · rw [he]
  · simp only [isAsciiDigit, decide_eq_decide, ht]
    omega

theorem isAsciiUpper_jsLowerChar (c : Char) : isAsciiUpper (jsLowerChar c) = false := by
  rcases jsLowerChar_spec c with ⟨he, h1, -⟩ | ⟨ht, hr⟩
  · rw [he]
    simp only [isAsciiUpper, decide_eq_false_iff_not]
    omega
  · simp only [isAsciiUpper, decide_eq_false_iff_not, ht]
    omega

theorem keepChar_jsLowerChar (c : Char) (h : keepChar c = true) :
    keepChar (jsLowerChar c) = true := by
  rcases jsLowerChar_spec c with ⟨he, -, -⟩ | ⟨ht, hr⟩
  · rw [he]; exact h
  · simp only [keepChar, isLetterLike, isNumberLike, isAsciiUpper, isAsciiLower, isAsciiDigit,
      Bool.or_eq_true, Bool.and_eq_true, Bool.not_eq_true', decide_eq_true_eq,
      decide_eq_false_iff_not, ht]
    omega

theorem toNat_jsLowerChar_eq_32 (c : Char) (h : (jsLowerChar c).toNat = 32) :
    c.toNat = 32 := by
  rcases jsLowerChar_spec c with ⟨he, -, -⟩ | ⟨ht, hr⟩
  · rw [he] at h; exact h
  · rw [ht] at h; omega

theorem jsLowerChar_idem (c : Char) : jsLowerChar (jsLowerChar c) = jsLowerChar c := by
  rcases jsLowerChar_spec c with ⟨he, -, -⟩ | ⟨ht, hr⟩
  · rw [he, he]
  · rcases jsLowerChar_spec (jsLowerChar c) with ⟨he2, -, -⟩ | ⟨ht2, hr2⟩
    · exact he2
    · rw [ht] at hr2
      omega

theorem keepChar_jsUpperChar (c : Char) (h : keepChar c = true) :
    keepChar (jsUpperChar c) = true := by
  rcases jsUpperChar_spec c with ⟨he, -, -⟩ | ⟨ht, hr⟩
  · rw [he]; exact h
  · simp only [keepChar, isLetterLike, isNumberLike, isAsciiUpper, isAsciiLower, isAsciiDigit,
      Bool.or_eq_true, Bool.and_eq_true, Bool.not_eq_true', decide_eq_true_eq,
      decide_eq_false_iff_not, ht]
    omega

theorem toNat_jsUpperChar_eq_32 (c : Char) (h : (jsUpperChar c).toNat = 32) :
    c.toNat = 32 := by
  rcases jsUpperChar_spec c with ⟨he, -, -⟩ | ⟨ht, hr⟩
  · rw [he] at h; exact h
  · rw [ht] at h; omega

theorem kdBoundary_jsLowerChar (a b : Char) (h : kdBoundary a b = false) :
    kdBoundary (jsLowerChar a) (jsLowerChar b) = false := by
  simp only [kdBoundary, Bool.or_eq_false_iff, Bool.and_eq_false_iff] at h ⊢
  rw [isAsciiDigit_jsLowerChar, isAsciiDigit_jsLowerChar, isAsciiUpper_jsLowerChar]
  refine ⟨⟨Or.inr rfl, h.1.2⟩, h.2⟩

theorem isSepChar_eq_false_of_keep (c : Char) (hk : keepChar c = true)
    (hs : c.toNat ≠ 32) : isSepChar c = false := by
  simp only [keepChar, isLetterLike, isNumberLike, isAsciiUpper, isAsciiLower, isAsciiDigit,
    Bool.or_eq_true, Bool.and_eq_true, Bool.not_eq_true', decide_eq_true_eq,
    decide_eq_false_iff_not] at hk
  simp only [isSepChar, isJsSpace, Bool.or_eq_false_iff, decide_eq_false_iff_not]
  omega

theorem isJsSpace_eq_false_of_sep (c : Char) (h : isSepChar c = false) :
    isJsSpace c = false := by
  simp only [isSepChar, Bool.or_eq_false_iff] at h
  exact h.1.1.1.1.1

theorem kebab_splitGo_ne_nil (rest : List Char) (pending : List Char) (prev : Char) :
    Kebab.splitGo pending prev rest ≠ [] := by
  induction rest generalizing pending prev with
  | nil => simp [Kebab.splitGo]
  | cons b r ih =>
    simp only [Kebab.splitGo]
    split
    · simp
    · exact ih _ _

theorem kebab_splitGo_flatten (rest : List Char) (pending : List Char) (prev : Char) :
    (Kebab.splitGo pending prev rest).flatten = pending.reverse ++ rest := by
  induction rest generalizing pending prev with
  | nil => simp [Kebab.splitGo]
  | cons b r ih =>
    simp only [Kebab.splitGo]
    split
    · simp [ih]
    · simp [ih]

theorem kebab_mem_splitGo_ne_nil (rest : List Char) (pending : List Char) (prev : Char)
    (hp : pending ≠ []) (w : List Char) (hw : w ∈ Kebab.splitGo pending prev rest) :
    w ≠ [] := by
  induction rest generalizing pending prev with
  | nil =>
    simp only [Kebab.splitGo, List.mem_singleton] at hw
    simpa [hw] using hp
  | cons b r ih =>
    simp only [Kebab.splitGo] at hw
    split at hw
    · rcases List.mem_cons.mp hw with h | h
      · simpa [h] using hp
      · exact ih _ _ (by simp) h
    · exact ih _ _ (by simp) hw

theorem kebab_mem_splitGo_chain (rest : List Char) (pending : List Char) (prev : Char)
    (hh : pending.head? = some prev)
    (hc : List.Chain' (fun a b => kdBoundary a b = false) pending.reverse)
    (w : List Char) (hw : w ∈ Kebab.splitGo pending prev rest) :
    List.Chain' (fun a b => kdBoundary a b = false) w := by
  induction rest generalizing pending prev with
  | nil =>
    simp only [Kebab.splitGo, List.mem_singleton] at hw
    rw [hw]; exact hc
  | cons b r ih =>
    simp only [Kebab.splitGo] at hw
    split at hw
    · rcases List.mem_cons.mp hw with h | h
      · rw [h]; exact hc
      · exact ih [b] b rfl (by simp) h
    · next hbd =>
      refine ih (b :: pending) b rfl ?_ hw
      simp only [List.reverse_cons]
      rw [List.chain'_append]
      refine ⟨hc, List.chain'_singleton b, ?_⟩
      intro x hx y hy
      rw [List.getLast?_reverse, hh] at hx
      simp only [Option.mem_def, Option.some.injEq] at hx
      simp only [List.head?_cons, Option.mem_def, Option.some.injEq] at hy
      rw [← hx, ← hy]
      simpa using hbd

theorem kebab_splitGo_single (rest : List Char) (pending : List Char) (prev : Char)
    (hc : List.Chain' (fun a b => kdBoundary a b = false) (prev :: rest)) :
    Kebab.splitGo pending prev rest = [pending.reverse ++ rest] := by
  induction rest generalizing pending prev with
  | nil => simp [Kebab.splitGo]
  | cons b r ih =>
    rcases List.chain'_cons.mp hc with ⟨hbd, hc2⟩
    simp only [Kebab.splitGo]
    rw [if_neg (by simp [hbd])]
    rw [ih (b :: pending) b hc2]
    simp

theorem kebab_split_flatten (t : List Char) :
    (Kebab.splitOnCaseAndNumberTransitions t).flatten = t := by
  cases t with
  | nil => simp [Kebab.splitOnCaseAndNumberTransitions]
  | cons c cs =>
    simp [Kebab.splitOnCaseAndNumberTransitions, kebab_splitGo_flatten]

theorem kebab_mem_split_ne_nil (t : List Char) (ht : t ≠ []) (w : List Char)
    (hw : w ∈ Kebab.splitOnCaseAndNumberTransitions t) : w ≠ [] := by
  cases t with
  | nil => exact absurd rfl ht
  | cons c cs =>
    exact kebab_mem_splitGo_ne_nil cs [c] c (by simp) w hw

theorem kebab_mem_split_chain (t : List Char) (w : List Char)
    (hw : w ∈ Kebab.splitOnCaseAndNumberTransitions t) :
    List.Chain' (fun a b => kdBoundary a b = false) w := by
  cases t with
  | nil =>
    simp only [Kebab.splitOnCaseAndNumberTransitions, List.mem_singleton] at hw
    rw [hw]; exact List.chain'_nil
  | cons c cs =>
    exact kebab_mem_splitGo_chain cs [c] c rfl (by simp) w hw

theorem kebab_split_eq_single (t : List Char) (ht : t ≠ [])
    (hc : List.Chain' (fun a b => kdBoundary a b = false) t) :
    Kebab.splitOnCaseAndNumberTransitions t = [t] := by
  cases t with
  | nil => exact absurd rfl ht
  | cons c cs =>
    simp only [Kebab.splitOnCaseAndNumberTransitions]
    rw [kebab_splitGo_single cs [c] c hc]
    simp

theorem dot_splitGo_eq_kebab (rest : List Char) (pending : List Char) (prev : Char) :
    Dot.splitGo pending prev rest = Kebab.splitGo pending prev rest := by
  induction rest generalizing pending prev with
  | nil => rfl
  | cons b r ih =>
    simp only [Dot.splitGo, Kebab.splitGo]
    split
    · rw [ih]
    · rw [ih]

theorem dot_split_eq_kebab (t : List Char) :
    Dot.splitOnCaseAndNumberTransitions t = Kebab.splitOnCaseAndNumberTransitions t := by
  cases t with
  | nil => rfl
  | cons c cs =>
    simp only [Dot.splitOnCaseAndNumberTransitions, Kebab.splitOnCaseAndNumberTransitions]
    exact dot_splitGo_eq_kebab cs [c] c

theorem dot_buildWords_eq_kebab (toks : List (List Char)) (pn : Bool) :
    Dot.buildWords toks pn = Kebab.buildWords toks pn := by
  simp only [Dot.buildWords, Kebab.buildWords, dot_split_eq_kebab]

theorem camel_splitGo_ne_nil (rest : List Char) (pending : List Char) (prev : Char) :
    Camel.splitGo pending prev rest ≠ [] := by
  induction rest generalizing pending prev with
  | nil => simp [Camel.splitGo]
  | cons b r ih =>
    simp only [Camel.splitGo]
    split
    · simp
    · exact ih _ _

theorem camel_splitGo_flatten (rest : List Char) (pending : List Char) (prev : Char) :
    (Camel.splitGo pending prev rest).flatten = pending.reverse ++ rest := by
  induction rest generalizing pending prev with
  | nil => simp [Camel.splitGo]
  | cons b r ih =>
    simp only [Camel.splitGo]
    split
    · simp [ih]
    · simp [ih]

theorem camel_mem_splitGo_ne_nil (rest : List Char) (pending : List Char) (prev : Char)
    (hp : pending ≠ []) (w : List Char) (hw : w ∈ Camel.splitGo pending prev rest) :
    w ≠ [] := by
  induction rest generalizing pending prev with
  | nil =>
    simp only [Camel.splitGo, List.mem_singleton] at hw
    simpa [hw] using hp
  | cons b r ih =>
    simp only [Camel.splitGo] at hw
    split at hw
    · rcases List.mem_cons.mp hw with h | h
      · simpa [h] using hp
      · exact ih _ _ (by simp) h
    · exact ih _ _ (by simp) hw

theorem camel_split_flatten (t : List Char) (pa : Bool) :
    (Camel.splitOnCaseAndNumberTransitions t pa).flatten = t := by
  cases t with
  | nil => simp [Camel.splitOnCaseAndNumberTransitions]
  | cons c cs =>
    simp [Camel.splitOnCaseAndNumberTransitions, camel_splitGo_flatten]

theorem camel_mem_split_ne_nil (t : List Char) (pa : Bool) (ht : t ≠ []) (w : List Char)
    (hw : w ∈ Camel.splitOnCaseAndNumberTransitions t pa) : w ≠ [] := by
  cases t with
  | nil => exact absurd rfl ht
  | cons c cs =>
    exact camel_mem_splitGo_ne_nil cs [c] c (by simp) w hw

theorem mem_collapseSeparators (s : List Char) (c : Char)
    (hc : c ∈ collapseSeparators s) : c ∈ s ∨ c = ' ' := by
  induction s with
  | nil => simp [collapseSeparators] at hc
  | cons d ds ih =>
    simp only [collapseSeparators] at hc
    split at hc
    · split at hc
      · rcases ih hc with h | h
        · exact Or.inl (List.mem_cons_of_mem d h)
        · exact Or.inr h
      · rcases List.mem_cons.mp hc with h | h
        · exact Or.inr h
        · rcases ih h with h2 | h2
          · exact Or.inl (List.mem_cons_of_mem d h2)
          · exact Or.inr h2
    · rcases List.mem_cons.mp hc with h | h
      · exact Or.inl (by simp [h])
      · rcases ih h with h2 | h2
        · exact Or.inl (List.mem_cons_of_mem d h2)
        · exact Or.inr h2

theorem mem_collapseSpaceRuns (s : List Char) (c : Char)
    (hc : c ∈ collapseSpaceRuns s) : c ∈ s ∨ c = ' ' := by
  induction s with
  | nil => simp [collapseSpaceRuns] at hc
  | cons d ds ih =>
    simp only [collapseSpaceRuns] at hc
    split at hc
    · split at hc
      · rcases ih hc with h | h
        · exact Or.inl (List.mem_cons_of_mem d h)
        · exact Or.inr h
      · rcases List.mem_cons.mp hc with h | h
        · exact Or.inr h
        · rcases ih h with h2 | h2
          · exact Or.inl (List.mem_cons_of_mem d h2)
          · exact Or.inr h2
    · rcases List.mem_cons.mp hc with h | h
      · exact Or.inl (by simp [h])
      · rcases ih h with h2 | h2
        · exact Or.inl (List.mem_cons_of_mem d h2)
        · exact Or.inr h2

theorem mem_trimSpaces (s : List Char) (c : Char) (hc : c ∈ trimSpaces s) : c ∈ s := by
  simp only [trimSpaces, List.mem_reverse] at hc
  have h1 := (@List.dropWhile_sublist Char ((s.dropWhile isJsSpace).reverse) isJsSpace).subset hc
  rw [List.mem_reverse] at h1
  exact (@List.dropWhile_sublist Char s isJsSpace).subset h1

theorem mem_filterKeep (s : List Char) (c : Char) (hc : c ∈ filterKeep s) :
    keepChar c = true := by
  simpa [filterKeep] using (List.mem_filter.mp hc).2

theorem splitOnSpace_ne_nil (s : List Char) : splitOnSpace s ≠ [] := by
  induction s with
  | nil => simp [splitOnSpace]
  | cons d ds ih =>
    simp only [splitOnSpace]
    split
    · simp
    · split <;> simp

theorem mem_splitOnSpace_good (s : List Char) (w : List Char)
    (hw : w ∈ splitOnSpace s) (c : Char) (hc : c ∈ w) : c ∈ s ∧ c ≠ ' ' := by
  induction s generalizing w with
  | nil =>
    simp only [splitOnSpace, List.mem_singleton] at hw
    rw [hw] at hc
    simp at hc
  | cons d ds ih =>
    simp only [splitOnSpace] at hw
    split at hw
    · next heq => exact absurd heq (splitOnSpace_ne_nil ds)
    · next t ts heq =>
      split at hw
      · next hd =>
        rcases List.mem_cons.mp hw with h | h
        · rw [h] at hc; simp at hc
        · have := ih w (by rw [heq]; exact h) hc
          exact ⟨List.mem_cons_of_mem d this.1, this.2⟩
      · next hd =>
        rcases List.mem_cons.mp hw with h | h
        · rw [h] at hc
          rcases List.mem_cons.mp hc with h2 | h2
          · rw [h2]; exact ⟨by simp, by simpa using hd⟩
          · have := ih t (by rw [heq]; exact List.mem_cons_self t ts) h2
            exact ⟨List.mem_cons_of_mem d this.1, this.2⟩
        · have := ih w (by rw [heq]; exact List.mem_cons_of_mem t h) hc
          exact ⟨List.mem_cons_of_mem d this.1, this.2⟩

theorem mem_rawTokens_good (nd : Bool) (s : List Char) (t : List Char)
    (ht : t ∈ rawTokens nd s) (c : Char) (hc : c ∈ t) :
    keepChar c = true ∧ c.toNat ≠ 32 := by
  simp only [rawTokens] at ht
  split at ht
  · simp at ht
  · have hgood := mem_splitOnSpace_good _ t ht c hc
    have hne : c.toNat ≠ 32 := by
      intro h32
      exact hgood.2 (char_eq_of_toNat_eq h32)
    refine ⟨?_, hne⟩
    have h1 := hgood.1
    simp only [preprocess, nfcNormalize] at h1
    rcases mem_collapseSpaceRuns _ _ h1 with h2 | h2
    · exact mem_filterKeep _ _ (mem_trimSpaces _ _ h2)
    · exact absurd h2 hgood.2

theorem intercalate_nil_eq (s : List Char) :
    List.intercalate s ([] : List (List Char)) = [] := by
  simp [List.intercalate]

theorem intercalate_single_eq (s w : List Char) : List.intercalate s [w] = w := by
  simp [List.intercalate]

theorem intercalate_cons2_eq (s w x : List Char) (ws : List (List Char)) :
    List.intercalate s (w :: x :: ws) = w ++ s ++ List.intercalate s (x :: ws) := by
  simp [List.intercalate, List.intersperse]

theorem mem_intercalate_char (j : Char) (ws : List (List Char)) (c : Char)
    (hc : c ∈ List.intercalate [j] ws) : (∃ w ∈ ws, c ∈ w) ∨ c = j := by
  induction ws with
  | nil => rw [intercalate_nil_eq] at hc; simp at hc
  | cons w ws ih =>
    cases ws with
    | nil =>
      rw [intercalate_single_eq] at hc
      exact Or.inl ⟨w, by simp, hc⟩
    | cons x rest =>
      rw [intercalate_cons2_eq] at hc
      rcases List.mem_append.mp hc with h | h
      · rcases List.mem_append.mp h with h2 | h2
        · exact Or.inl ⟨w, by simp, h2⟩
        · simp only [List.mem_singleton] at h2
          exact Or.inr h2
      · rcases ih h with ⟨v, hv, hcv⟩ | h2
        · exact Or.inl ⟨v, List.mem_cons_of_mem w hv, hcv⟩
        · exact Or.inr h2

theorem head?_intercalate_cons (j : Char) (w : List Char) (ws : List (List Char))
    (hw : w ≠ []) : (List.intercalate [j] (w :: ws)).head? = w.head? := by
  cases ws with
  | nil => rw [intercalate_single_eq]
  | cons x rest =>
    rw [intercalate_cons2_eq, List.append_assoc, List.head?_append]
    cases w with
    | nil => exact absurd rfl hw
    | cons a as => rfl

theorem intercalate_cons_ne_nil (j : Char) (w : List Char) (ws : List (List Char))
    (hw : w ≠ []) : List.intercalate [j] (w :: ws) ≠ [] := by
  intro h
  have := head?_intercalate_cons j w ws hw
  rw [h] at this
  cases w with
  | nil => exact absurd rfl hw
  | cons a as => simp at this

theorem getLast?_intercalate_ne (j : Char) (ws : List (List Char))
    (hws : ∀ w ∈ ws, w ≠ [] ∧ ∀ c ∈ w, c ≠ j) :
    (List.intercalate [j] ws).getLast? ≠ some j := by
  induction ws with
  | nil => rw [intercalate_nil_eq]; simp
  | cons w ws ih =>
    cases ws with
    | nil =>
      rw [intercalate_single_eq]
      intro h
      exact (hws w (by simp)).2 j (List.mem_of_mem_getLast? h) rfl
    | cons x rest =>
      rw [intercalate_cons2_eq, List.append_assoc, List.getLast?_append]
      have hi : List.intercalate [j] (x :: rest) ≠ [] :=
        intercalate_cons_ne_nil j x rest (hws x (by simp)).1
      have hlast := ih (fun v hv => hws v (List.mem_cons_of_mem w hv))
      rcases Option.isSome_iff_exists.mp (List.getLast?_isSome.mpr hi) with ⟨a, ha⟩
      rw [List.getLast?_append, ha]
      simpa [ha] using hlast

theorem lowerStr_ne_nil (p : List Char) (hp : p ≠ []) : lowerStr p ≠ [] := by
  cases p with
  | nil => exact absurd rfl hp
  | cons a as => simp [lowerStr]

theorem lowerStr_idem (p : List Char) : lowerStr (lowerStr p) = lowerStr p := by
  simp only [lowerStr, List.map_map]
  exact List.map_congr_left (fun a _ => jsLowerChar_idem a)

theorem kebab_mem_buildWords_good (toks : List (List Char)) (pn : Bool)
    (htoks : ∀ t ∈ toks, ∀ c ∈ t, keepChar c = true ∧ c.toNat ≠ 32)
    (w : List Char) (hw : w ∈ Kebab.buildWords toks pn) :
    w ≠ [] ∧ (∀ c ∈ w, keepChar c = true ∧ c.toNat ≠ 32) ∧
      (isAllDigits w = true ∨
        (List.Chain' (fun a b => kdBoundary a b = false) w ∧ lowerStr w = w)) := by
  simp only [Kebab.buildWords, List.mem_flatMap] at hw
  rcases hw with ⟨t, htm, hwt⟩
  split at hwt
  · simp at hwt
  · next hemp =>
    split at hwt
    · next hdig =>
      split at hwt
      · simp only [List.mem_singleton] at hwt
        subst hwt
        have hne : w ≠ [] := by
          have h2 := hdig
          simp only [isAllDigits, Bool.and_eq_true, Bool.not_eq_true'] at h2
          exact fun h => by simp [h] at h2
        exact ⟨hne, htoks w htm, Or.inl hdig⟩
      · simp at hwt
    · next hdig =>
      simp only [List.mem_map] at hwt
      rcases hwt with ⟨p, hpf, hpl⟩
      have hpmem := (List.mem_filter.mp hpf).1
      have hpne : p ≠ [] := by
        have := (List.mem_filter.mp hpf).2
        simpa using this
      subst hpl
      have hsub : ∀ c ∈ p, c ∈ t := by
        intro c hc
        rw [← kebab_split_flatten t]
        exact List.mem_flatten.mpr ⟨p, hpmem, hc⟩
      refine ⟨lowerStr_ne_nil p hpne, ?_, Or.inr ⟨?_, lowerStr_idem p⟩⟩
      · intro c hc
        simp only [lowerStr, List.mem_map] at hc
        rcases hc with ⟨c0, hc0, hcl⟩
        have hg := htoks t htm c0 (hsub c0 hc0)
        subst hcl
        refine ⟨keepChar_jsLowerChar c0 hg.1, ?_⟩
        intro h32
        exact hg.2 (toNat_jsLowerChar_eq_32 c0 h32)
      · have hch := kebab_mem_split_chain t p hpmem
        simp only [lowerStr]
        rw [List.chain'_map]
        exact hch.imp (fun a b hab => kdBoundary_jsLowerChar a b hab)

theorem camel_mem_buildWords_good (toks : List (List Char)) (pa pn : Bool)
    (htoks : ∀ t ∈ toks, ∀ c ∈ t, keepChar c = true ∧ c.toNat ≠ 32)
    (w : List Char) (hw : w ∈ Camel.buildWords toks pa pn) :
    w ≠ [] ∧ ∀ c ∈ w, keepChar c = true ∧ c.toNat ≠ 32 := by
  simp only [Camel.buildWords, List.mem_flatMap] at hw
  rcases hw with ⟨t, htm, hwt⟩
  split at hwt
  · simp at hwt
  · next hemp =>
    split at hwt
    · next hdig =>
      split at hwt
      · simp only [List.mem_singleton] at hwt
        subst hwt
        have hne : w ≠ [] := by
          have h2 := hdig
          simp only [isAllDigits, Bool.and_eq_true, Bool.not_eq_true'] at h2
          exact fun h => by simp [h] at h2
        exact ⟨hne, htoks w htm⟩
      · simp at hwt
    · next hdig =>
      have hpmem := (List.mem_filter.mp hwt).1
      have hpne : w ≠ [] := by
        have := (List.mem_filter.mp hwt).2
        simpa using this
      refine ⟨hpne, ?_⟩
      intro c hc
      refine htoks t htm c ?_
      rw [← camel_split_flatten t pa]
      exact List.mem_flatten.mpr ⟨w, hpmem, hc⟩

/-- C1: the claim states that all three converters place the acronym-rule
boundary (prev and curr uppercase, next lowercase), so that `XMLHttpRequest`
splits into `XML`, `Http`, `Request` everywhere.  Only the camel splitter
implements the acronym rule; the kebab and dot splitters split
`XMLHttpRequest` into `XMLHttp`, `Request`, contradicting their own
documentation comments (which give the `XMLHttpRequest -> [XML, Http,
Request]` example).  This theorem evaluates the code at the failing
input. -/
theorem c1_kebab_dot_splitter_lacks_acronym_rule :
    Camel.splitOnCaseAndNumberTransitions ("XMLHttpRequest".toList) false =
      ["XML".toList, "Http".toList, "Request".toList] ∧
    Camel.splitOnCaseAndNumberTransitions ("XMLHttpRequest".toList) true =
      ["XML".toList, "Http".toList, "Request".toList] ∧
    Kebab.splitOnCaseAndNumberTransitions ("XMLHttpRequest".toList) =
      ["XMLHttp".toList, "Request".toList] ∧
    Dot.splitOnCaseAndNumberTransitions ("XMLHttpRequest".toList) =
      ["XMLHttp".toList, "Request".toList] ∧
    Kebab.toKebabCaseJS (.strv ("XMLHttpRequest".toList)) absentOptions =
      .ok ("xmlhttp-request".toList) ∧
    Dot.toDotCaseJS (.strv ("XMLHttpRequest".toList)) absentOptions =
      .ok ("xmlhttp.request".toList) := by
  exact ⟨by decide, by decide, by decide, by decide, by rfl, by rfl⟩

/-- C4: `toCamelCase` maps `"hello world"` to `"helloWorld"`, maps
`"XML_http_request"` with `preserveAcronyms` and `pascalCase` to
`"XMLHttpRequest"`, maps `null` (without `throwOnInvalid`) to the empty
string, and a token that is entirely uppercase letters/digits with length
greater than one is rendered unchanged at every position (first token
included) when `preserveAcronyms` is set. -/
theorem c4_camel_scenarios :
    Camel.toCamelCaseJS (.strv ("hello world".toList)) absentOptions =
      .ok ("helloWorld".toList) ∧
    Camel.toCamelCaseJS (.strv ("XML_http_request".toList))
      ⟨.boolv true, .absent, .absent, .absent, .absent, .boolv true⟩ =
      .ok ("XMLHttpRequest".toList) ∧
    Camel.toCamelCaseJS .nullish absentOptions = .ok [] ∧
    (∀ (pc : Bool) (k : Nat) (w : List Char), Camel.isAcronym w = true →
      Camel.renderWord true pc k w = w) := by
  refine ⟨by rfl, by rfl, by rfl, ?_⟩
  intro pc k w h
  cases k <;> simp [Camel.renderWord, h]

/-- Witness for the acronym pass-through conjunct of `c4_camel_scenarios`
at the concrete first-position token `XML`. -/
theorem c4_camel_scenarios_witness :
    Camel.renderWord true true 0 ("XML".toList) = "XML".toList :=
  c4_camel_scenarios.2.2.2 true 0 ("XML".toList) (by decide)

/-- C10: the camel splitter never consults its `preserveAcronyms`
parameter, so tokenization is identical for both parameter values and
`preserveAcronyms` can only influence the assembly stage. -/
theorem c10_camel_split_ignores_preserveAcronyms :
    (∀ (t : List Char) (pa1 pa2 : Bool),
      Camel.splitOnCaseAndNumberTransitions t pa1 =
        Camel.splitOnCaseAndNumberTransitions t pa2) ∧
    (∀ (toks : List (List Char)) (pn : Bool),
      Camel.buildWords toks true pn = Camel.buildWords toks false pn) := by
  exact ⟨fun t pa1 pa2 => rfl, fun toks pn => rfl⟩

/-- C3 counterexample: with `preserveNumbers=false` the digit segment `1`
produced by transition-splitting the raw token `a1` is NOT removed: the
output still contains the pure-digit token `1`, so the conversion is not
the `preserveNumbers=true` conversion with every token matching "one or
more digits" removed (that would be `"a"`). -/
theorem c3_counterexample_digit_segment_survives :
    Kebab.toKebabCaseJS (.strv ("a1".toList))
      ⟨.absent, .absent, .absent, .absent, .boolv false, .absent⟩ =
      .ok ("a-1".toList) ∧
    Kebab.toKebabCaseJS (.strv ("a1".toList))
      ⟨.absent, .absent, .absent, .absent, .boolv true, .absent⟩ =
      .ok ("a-1".toList) ∧
    Kebab.buildWords [("a1".toList)] false = [['a'], ['1']] ∧
    isAllDigits ['1'] = true ∧
    ("a-1".toList ≠ "a".toList) := by
  exact ⟨by rfl, by rfl, by decide, by decide, by decide⟩

/-- C3 as amended: `preserveNumbers=false` drops exactly the pure-digit
RAW (separator-delimited) tokens: for every converter the token sequence
with `preserveNumbers=false` equals the `preserveNumbers=true` token
sequence of the raw tokens with the pure-digit ones removed, in order and
without affecting any other token; digit segments created by
transition-splitting are never dropped. -/
theorem c3_preserveNumbers_drops_raw_digit_tokens_only :
    ∀ (toks : List (List Char)),
      Kebab.buildWords toks false =
        Kebab.buildWords (toks.filter (fun t => !isAllDigits t)) true ∧
      Dot.buildWords toks false =
        Dot.buildWords (toks.filter (fun t => !isAllDigits t)) true ∧
      (∀ pa : Bool, Camel.buildWords toks pa false =
        Camel.buildWords (toks.filter (fun t => !isAllDigits t)) pa true) := by
  have hkebab : ∀ (toks : List (List Char)),
      Kebab.buildWords toks false =
        Kebab.buildWords (toks.filter (fun t => !isAllDigits t)) true := by
    intro toks
    induction toks with
    | nil => rfl
    | cons t ts ih =>
      by_cases hd : isAllDigits t = true
      · have hemp : t.isEmpty = false := by
          simp only [isAllDigits, Bool.and_eq_true, Bool.not_eq_true'] at hd
          exact hd.1
        simp only [Kebab.buildWords, List.filter_cons] at ih ⊢
        simp at ih
        simp [hd, hemp]
        exact ih
      · simp only [Bool.not_eq_true] at hd
        simp only [Kebab.buildWords, List.filter_cons] at ih ⊢
        simp at ih
        simp [hd]
        exact ih
  have hcamel : ∀ (toks : List (List Char)) (pa : Bool),
      Camel.buildWords toks pa false =
        Camel.buildWords (toks.filter (fun t => !isAllDigits t)) pa true := by
    intro toks pa
    induction toks with
    | nil => rfl
    | cons t ts ih =>
      by_cases hd : isAllDigits t = true
      · have hemp : t.isEmpty = false := by
          simp only [isAllDigits, Bool.and_eq_true, Bool.not_eq_true'] at hd
          exact hd.1
        simp only [Camel.buildWords, List.filter_cons] at ih ⊢
        simp at ih
        simp [hd, hemp]
        exact ih
      · simp only [Bool.not_eq_true] at hd
        simp only [Camel.buildWords, List.filter_cons] at ih ⊢
        simp at ih
        simp [hd]
        exact ih
  intro toks
  refine ⟨hkebab toks, ?_, hcamel toks⟩
  rw [dot_buildWords_eq_kebab, dot_buildWords_eq_kebab]
  exact hkebab toks

theorem ne_dash_of_good (c : Char) (hk : keepChar c = true) (h32 : c.toNat ≠ 32) :
    c ≠ '-' := by
  intro h
  have := isSepChar_eq_false_of_keep c hk h32
  rw [h] at this
  simp [isSepChar] at this

theorem ne_dot_of_good (c : Char) (hk : keepChar c = true) (h32 : c.toNat ≠ 32) :
    c ≠ '.' := by
  intro h
  have := isSepChar_eq_false_of_keep c hk h32
  rw [h] at this
  simp [isSepChar] at this

theorem replaceDashDot_intercalate (ws : List (List Char))
    (hws : ∀ w ∈ ws, ∀ c ∈ w, c ≠ '-') :
    replaceDashDot (List.intercalate ['-'] ws) = List.intercalate ['.'] ws := by
  induction ws with
  | nil => simp [replaceDashDot, intercalate_nil_eq]
  | cons w ws ih =>
    have hw : replaceDashDot w = w := by
      simp only [replaceDashDot]
      have h2 := @List.map_congr_left Char w Char
        (fun c => if c = '-' then '.' else c) id
        (fun c hc => by simp [hws w (by simp) c hc])
      simpa using h2
    cases ws with
    | nil => rw [intercalate_single_eq, intercalate_single_eq]; exact hw
    | cons x rest =>
      rw [intercalate_cons2_eq, intercalate_cons2_eq]
      have hrest := ih (fun v hv => hws v (List.mem_cons_of_mem w hv))
      have hw2 : List.map (fun c => if c = '-' then '.' else c) w = w := hw
      simp only [replaceDashDot, List.map_append] at hrest ⊢
      rw [hw2, hrest]
      simp

theorem kebab_words_good_of_rawTokens (nd pn : Bool) (s : List Char) :
    ∀ w ∈ Kebab.buildWords (rawTokens nd s) pn,
      w ≠ [] ∧ (∀ c ∈ w, keepChar c = true ∧ c.toNat ≠ 32) ∧
        (isAllDigits w = true ∨
          (List.Chain' (fun a b => kdBoundary a b = false) w ∧ lowerStr w = w)) := by
  intro w hw
  exact kebab_mem_buildWords_good (rawTokens nd s) pn
    (fun t ht c hc => mem_rawTokens_good nd s t ht c hc) w hw

theorem dot_core_eq_replace_kebab (s : List Char) (nd : Bool)
    (loc : Option (List Char)) (pn : Bool) :
    Dot.toDotCase s ⟨nd, loc, pn⟩ = replaceDashDot (Kebab.toKebabCase s ⟨nd, loc, pn⟩) := by
  simp only [Dot.toDotCase, Kebab.toKebabCase, dot_buildWords_eq_kebab]
  rw [replaceDashDot_intercalate]
  intro w hw c hc
  have hg := (kebab_words_good_of_rawTokens nd pn s w hw).2.1 c hc
  exact ne_dash_of_good c hg.1 hg.2

/-- C8: `toDotCase` and `toKebabCase` produce exactly the same ordered
token sequence (their splitters and token loops are identical code), so a
dot-case call equals the kebab-case call with every hyphen joiner replaced
by a period, for every input and options object, including the error
cases (identical validation and messages). -/
theorem c8_dot_equals_kebab_with_dot_joiner :
    (∀ (toks : List (List Char)) (pn : Bool),
      Dot.buildWords toks pn = Kebab.buildWords toks pn) ∧
    ∀ (i : JsInputVal) (o : JsOptionsObj),
      Dot.toDotCaseJS i o = (Kebab.toKebabCaseJS i o).map replaceDashDot := by
  refine ⟨dot_buildWords_eq_kebab, ?_⟩
  intro i o
  simp only [Dot.toDotCaseJS, Kebab.toKebabCaseJS]
  cases hloc : checkLocaleOpt (jsTruthy (resolveOpt o.throwOnInvalid (.boolv false)))
      (resolveOpt o.locale .undef) with
  | error e => rfl
  | ok loc =>
    cases hinp : inputToText (jsTruthy (resolveOpt o.throwOnInvalid (.boolv false))) i with
    | error e => rfl
    | ok os =>
      cases os with
      | none => rfl
      | some s =>
        simp only [Except.map]
        rw [dot_core_eq_replace_kebab]

theorem kebab_resultOrEmpty_cases (i : JsInputVal) (o : JsOptionsObj) :
    resultOrEmpty (Kebab.toKebabCaseJS i o) = [] ∨
    ∃ (s : List Char) (opts : Kebab.Options),
      resultOrEmpty (Kebab.toKebabCaseJS i o) = Kebab.toKebabCase s opts := by
  simp only [Kebab.toKebabCaseJS]
  cases hloc : checkLocaleOpt (jsTruthy (resolveOpt o.throwOnInvalid (.boolv false)))
      (resolveOpt o.locale .undef) with
  | error e => exact Or.inl rfl
  | ok loc =>
    cases hinp : inputToText (jsTruthy (resolveOpt o.throwOnInvalid (.boolv false))) i with
    | error e => exact Or.inl rfl
    | ok os =>
      cases os with
      | none => exact Or.inl rfl
      | some s => exact Or.inr ⟨s, _, rfl⟩

theorem dot_resultOrEmpty_cases (i : JsInputVal) (o : JsOptionsObj) :
    resultOrEmpty (Dot.toDotCaseJS i o) = [] ∨
    ∃ (s : List Char) (opts : Dot.Options),
      resultOrEmpty (Dot.toDotCaseJS i o) = Dot.toDotCase s opts := by
  simp only [Dot.toDotCaseJS]
  cases hloc : checkLocaleOpt (jsTruthy (resolveOpt o.throwOnInvalid (.boolv false)))
      (resolveOpt o.locale .undef) with
  | error e => exact Or.inl rfl
  | ok loc =>
    cases hinp : inputToText (jsTruthy (resolveOpt o.throwOnInvalid (.boolv false))) i with
    | error e => exact Or.inl rfl
    | ok os =>
      cases os with
      | none => exact Or.inl rfl
      | some s => exact Or.inr ⟨s, _, rfl⟩

theorem camel_resultOrEmpty_cases (i : JsInputVal) (o : JsOptionsObj) :
    resultOrEmpty (Camel.toCamelCaseJS i o) = [] ∨
    ∃ (s : List Char) (opts : Camel.Options),
      resultOrEmpty (Camel.toCamelCaseJS i o) = Camel.toCamelCase s opts := by
  simp only [Camel.toCamelCaseJS]
  cases hpa : checkBoolOpt (jsTruthy (resolveOpt o.throwOnInvalid (.boolv false)))
      (resolveOpt o.preserveAcronyms (.boolv false))
      ("Option \"preserveAcronyms\" must be a boolean") with
  | error e => exact Or.inl rfl
  | ok pa =>
    cases hloc : checkLocaleOpt (jsTruthy (resolveOpt o.throwOnInvalid (.boolv false)))
        (resolveOpt o.locale .undef) with
    | error e => exact Or.inl rfl
    | ok loc =>
      cases hnd : checkBoolOpt (jsTruthy (resolveOpt o.throwOnInvalid (.boolv false)))
          (resolveOpt o.normalizeDiacritics (.boolv false))
          ("Option \"normalizeDiacritics\" must be a boolean") with
      | error e => exact Or.inl rfl
      | ok nd =>
        cases hinp : inputToText (jsTruthy (resolveOpt o.throwOnInvalid (.boolv false))) i with
        | error e => exact Or.inl rfl
        | ok os =>
          cases os with
          | none => exact Or.inl rfl
          | some s => exact Or.inr ⟨s, _, rfl⟩

theorem kebab_core_separator_discipline (s : List Char) (o : Kebab.Options) :
    ((Kebab.toKebabCase s o).all (fun c => !isSepChar c || c == '-')) = true ∧
    ((Kebab.toKebabCase s o).head? == some '-') = false ∧
    ((Kebab.toKebabCase s o).getLast? == some '-') = false := by
  have hgood := kebab_words_good_of_rawTokens o.normalizeDiacritics o.preserveNumbers s
  refine ⟨?_, ?_, ?_⟩
  · rw [List.all_eq_true]
    intro c hc
    simp only [Kebab.toKebabCase] at hc
    rcases mem_intercalate_char '-' _ c hc with ⟨w, hw, hcw⟩ | h
    · have hg := (hgood w hw).2.1 c hcw
      simp [isSepChar_eq_false_of_keep c hg.1 hg.2]
    · simp [h]
  · simp only [Kebab.toKebabCase]
    cases hws : Kebab.buildWords (rawTokens o.normalizeDiacritics s) o.preserveNumbers with
    | nil => rw [intercalate_nil_eq]; rfl
    | cons w ws =>
      have hwne : w ≠ [] := (hgood w (by rw [hws]; simp)).1
      rw [head?_intercalate_cons '-' w ws hwne]
      cases hw0 : w.head? with
      | none => rfl
      | some c0 =>
        have hc0 : c0 ∈ w := List.mem_of_mem_head? hw0
        have hg := (hgood w (by rw [hws]; simp)).2.1 c0 hc0
        have : c0 ≠ '-' := ne_dash_of_good c0 hg.1 hg.2
        simpa using this
  · simp only [Kebab.toKebabCase]
    have := getLast?_intercalate_ne '-'
      (Kebab.buildWords (rawTokens o.normalizeDiacritics s) o.preserveNumbers)
      (fun w hw => ⟨(hgood w hw).1,
        fun c hc => ne_dash_of_good c ((hgood w hw).2.1 c hc).1 ((hgood w hw).2.1 c hc).2⟩)
    simpa using this

theorem dot_core_separator_discipline (s : List Char) (o : Dot.Options) :
    ((Dot.toDotCase s o).all (fun c => !isSepChar c || c == '.')) = true ∧
    ((Dot.toDotCase s o).head? == some '.') = false ∧
    ((Dot.toDotCase s o).getLast? == some '.') = false := by
  have hgood := kebab_words_good_of_rawTokens o.normalizeDiacritics o.preserveNumbers s
  have hbw : Dot.buildWords (rawTokens o.normalizeDiacritics s) o.preserveNumbers =
      Kebab.buildWords (rawTokens o.normalizeDiacritics s) o.preserveNumbers :=
    dot_buildWords_eq_kebab _ _
  refine ⟨?_, ?_, ?_⟩
  · rw [List.all_eq_true]
    intro c hc
    simp only [Dot.toDotCase, hbw] at hc
    rcases mem_intercalate_char '.' _ c hc with ⟨w, hw, hcw⟩ | h
    · have hg := (hgood w hw).2.1 c hcw
      simp [isSepChar_eq_false_of_keep c hg.1 hg.2]
    · simp [h]
  · simp only [Dot.toDotCase, hbw]
    cases hws : Kebab.buildWords (rawTokens o.normalizeDiacritics s) o.preserveNumbers with
    | nil => rw [intercalate_nil_eq]; rfl
    | cons w ws =>
      have hwne : w ≠ [] := (hgood w (by rw [hws]; simp)).1
      rw [head?_intercalate_cons '.' w ws hwne]
      cases hw0 : w.head? with
      | none => rfl
      | some c0 =>
        have hc0 : c0 ∈ w := List.mem_of_mem_head? hw0
        have hg := (hgood w (by rw [hws]; simp)).2.1 c0 hc0
        have : c0 ≠ '.' := ne_dot_of_good c0 hg.1 hg.2
        simpa using this
  · simp only [Dot.toDotCase, hbw]
    have := getLast?_intercalate_ne '.'
      (Kebab.buildWords (rawTokens o.normalizeDiacritics s) o.preserveNumbers)
      (fun w hw => ⟨(hgood w hw).1,
        fun c hc => ne_dot_of_good c ((hgood w hw).2.1 c hc).1 ((hgood w hw).2.1 c hc).2⟩)
    simpa using this

theorem lowerStr_chars_good (w : List Char)
    (hw : ∀ c ∈ w, keepChar c = true ∧ c.toNat ≠ 32) :
    ∀ c ∈ lowerStr w, keepChar c = true ∧ c.toNat ≠ 32 := by
  intro c hc
  simp only [lowerStr, List.mem_map] at hc
  rcases hc with ⟨c0, hc0, rfl⟩
  have hg := hw c0 hc0
  exact ⟨keepChar_jsLowerChar c0 hg.1, fun h => hg.2 (toNat_jsLowerChar_eq_32 c0 h)⟩

theorem upperFirst_chars_good (w : List Char)
    (hw : ∀ c ∈ w, keepChar c = true ∧ c.toNat ≠ 32) :
    ∀ c ∈ upperFirst w, keepChar c = true ∧ c.toNat ≠ 32 := by
  cases w with
  | nil => intro c hc; simp [upperFirst] at hc
  | cons a as =>
    intro c hc
    simp only [upperFirst, List.mem_cons] at hc
    rcases hc with rfl | hc
    · have hg := hw a (by simp)
      exact ⟨keepChar_jsUpperChar a hg.1, fun h => hg.2 (toNat_jsUpperChar_eq_32 a h)⟩
    · exact lowerStr_chars_good as (fun d hd => hw d (List.mem_cons_of_mem a hd)) c hc

theorem camel_renderWord_chars_good (pa pc : Bool) (k : Nat) (w : List Char)
    (hw : ∀ c ∈ w, keepChar c = true ∧ c.toNat ≠ 32) :
    ∀ c ∈ Camel.renderWord pa pc k w, keepChar c = true ∧ c.toNat ≠ 32 := by
  have hnorm : ∀ c ∈ Camel.normalizeWord pa w, keepChar c = true ∧ c.toNat ≠ 32 := by
    simp only [Camel.normalizeWord]
    split
    · exact hw
    · exact lowerStr_chars_good w hw
  simp only [Camel.renderWord]
  split <;> split
  · exact hw
  · split
    · exact upperFirst_chars_good _ hnorm
    · exact hnorm
  · exact hw
  · exact upperFirst_chars_good _ hnorm

theorem snd_mem_of_mem_enumFrom {α : Type} (l : List α) (n : Nat) (p : Nat × α)
    (hp : p ∈ List.enumFrom n l) : p.2 ∈ l := by
  induction l generalizing n with
  | nil => simp [List.enumFrom] at hp
  | cons a as ih =>
    simp only [List.enumFrom, List.mem_cons] at hp
    rcases hp with rfl | hp
    · simp
    · exact List.mem_cons_of_mem a (ih (n + 1) hp)

theorem camel_core_separator_discipline (s : List Char) (o : Camel.Options) :
    ((Camel.toCamelCase s o).all (fun c => !isSepChar c)) = true := by
  rw [List.all_eq_true]
  intro c hc
  simp only [Camel.toCamelCase, Camel.assemble, List.mem_flatten] at hc
  rcases hc with ⟨l, hl, hcl⟩
  simp only [List.mem_map] at hl
  rcases hl with ⟨p, hp, rfl⟩
  have hw : p.2 ∈ Camel.buildWords (rawTokens o.normalizeDiacritics s)
      o.preserveAcronyms o.preserveNumbers := by
    exact snd_mem_of_mem_enumFrom _ 0 p hp
  have hwg := camel_mem_buildWords_good (rawTokens o.normalizeDiacritics s)
    o.preserveAcronyms o.preserveNumbers
    (fun t ht d hd => mem_rawTokens_good o.normalizeDiacritics s t ht d hd) p.2 hw
  have hg := camel_renderWord_chars_good o.preserveAcronyms o.pascalCase p.1 p.2 hwg.2 c hcl
  simp [isSepChar_eq_false_of_keep c hg.1 hg.2]

/-- C6: for every input and every options object, a kebab output contains
no separator character other than the hyphen and neither starts nor ends
with a hyphen; a dot output contains no separator other than the period
and neither starts nor ends with a period; a camel output contains no
separator character at all (raised errors produce no output, covered by
the empty payload). -/
theorem c6_output_joiner_discipline :
    ∀ (i : JsInputVal) (o : JsOptionsObj),
      ((resultOrEmpty (Kebab.toKebabCaseJS i o)).all (fun c => !isSepChar c || c == '-')) = true ∧
      ((resultOrEmpty (Kebab.toKebabCaseJS i o)).head? == some '-') = false ∧
      ((resultOrEmpty (Kebab.toKebabCaseJS i o)).getLast? == some '-') = false ∧
      ((resultOrEmpty (Dot.toDotCaseJS i o)).all (fun c => !isSepChar c || c == '.')) = true ∧
      ((resultOrEmpty (Dot.toDotCaseJS i o)).head? == some '.') = false ∧
      ((resultOrEmpty (Dot.toDotCaseJS i o)).getLast? == some '.') = false ∧
      ((resultOrEmpty (Camel.toCamelCaseJS i o)).all (fun c => !isSepChar c)) = true := by
  intro i o
  refine ⟨?_, ?_, ?_, ?_, ?_, ?_, ?_⟩
  · rcases kebab_resultOrEmpty_cases i o with h | ⟨s, o1, h⟩ <;> rw [h]
    · rfl
    · exact (kebab_core_separator_discipline s o1).1
  · rcases kebab_resultOrEmpty_cases i o with h | ⟨s, o1, h⟩ <;> rw [h]
    · rfl
    · exact (kebab_core_separator_discipline s o1).2.1
  · rcases kebab_resultOrEmpty_cases i o with h | ⟨s, o1, h⟩ <;> rw [h]
    · rfl
    · exact (kebab_core_separator_discipline s o1).2.2
  · rcases dot_resultOrEmpty_cases i o with h | ⟨s, o2, h⟩ <;> rw [h]
    · rfl
    · exact (dot_core_separator_discipline s o2).1
  · rcases dot_resultOrEmpty_cases i o with h | ⟨s, o2, h⟩ <;> rw [h]
    · rfl
    · exact (dot_core_separator_discipline s o2).2.1
  · rcases dot_resultOrEmpty_cases i o with h | ⟨s, o2, h⟩ <;> rw [h]
    · rfl
    · exact (dot_core_separator_discipline s o2).2.2
  · rcases camel_resultOrEmpty_cases i o with h | ⟨s, o3, h⟩ <;> rw [h]
    · rfl
    · exact camel_core_separator_discipline s o3

theorem isBoolVal_exists (v : JsOptVal) (h : isBoolVal v = true) : ∃ b, v = .boolv b := by
  cases v <;> simp [isBoolVal] at h ⊢

theorem checkBoolOpt_false (v : JsOptVal) (m : String) :
    checkBoolOpt false v m = .ok (coerceBool v) := by
  cases v <;> rfl

theorem checkBoolOpt_true_bad (v : JsOptVal) (m : String) (h : isBoolVal v = false) :
    checkBoolOpt true v m = .error (.typeError m) := by
  cases v <;> simp [isBoolVal] at h ⊢ <;> rfl

theorem checkLocaleOpt_ok_of_false (v : JsOptVal) :
    ∃ l, checkLocaleOpt false v = .ok l := by
  cases v <;> exact ⟨_, rfl⟩

theorem checkLocaleOpt_true_bad (v : JsOptVal) (h : isBadLocaleVal v = true) :
    checkLocaleOpt true v = .error (.typeError ("Option \"locale\" must be a string")) := by
  cases v <;> simp [isBadLocaleVal] at h ⊢ <;> rfl

theorem checkLocaleOpt_good (toi : Bool) (v : JsOptVal) (h : isBadLocaleVal v = false) :
    ∃ l, checkLocaleOpt toi v = .ok l := by
  cases v <;> simp [isBadLocaleVal] at h ⊢ <;> exact ⟨_, rfl⟩

theorem inputToText_ok_of_false (i : JsInputVal) :
    ∃ r, inputToText false i = .ok r := by
  cases i <;> exact ⟨_, rfl⟩

theorem inputToText_false_bad (i : JsInputVal) (h : isBadInput i = true) :
    inputToText false i = .ok none := by
  cases i <;> simp [isBadInput] at h ⊢ <;> rfl

theorem inputToText_true_bad (i : JsInputVal) (h : isBadInput i = true) :
    ∃ e, inputToText true i = .error e := by
  cases i <;> simp [isBadInput] at h ⊢ <;> exact ⟨_, rfl⟩

theorem inputToText_good (toi : Bool) (i : JsInputVal) (h : isBadInput i = false) :
    ∃ s, inputToText toi i = .ok (some s) := by
  cases i <;> simp [isBadInput] at h ⊢ <;> exact ⟨_, rfl⟩

theorem camel_isOk_eq (i : JsInputVal) (o : JsOptionsObj) :
    exceptIsOk (Camel.toCamelCaseJS i o) =
      !(effThrow o && (camelThrowingBadOption o || isBadInput i)) := by
  have htoi : jsTruthy (resolveOpt o.throwOnInvalid (.boolv false)) = effThrow o := rfl
  simp only [Camel.toCamelCaseJS, htoi]
  by_cases ht : effThrow o = true
  · rw [ht]
    by_cases hpa : isBoolVal (resolveOpt o.preserveAcronyms (.boolv false)) = true
    · rcases isBoolVal_exists _ hpa with ⟨b, hb⟩
      rw [hb]
      by_cases hloc : isBadLocaleVal (resolveOpt o.locale .undef) = true
      · rw [checkLocaleOpt_true_bad _ hloc]
        simp [checkBoolOpt, exceptIsOk, camelThrowingBadOption, hloc]
      · rcases checkLocaleOpt_good true _ (by simpa using hloc) with ⟨l, hl⟩
        rw [hl]
        by_cases hnd : isBoolVal (resolveOpt o.normalizeDiacritics (.boolv false)) = true
        · rcases isBoolVal_exists _ hnd with ⟨b2, hb2⟩
          rw [hb2]
          by_cases hbi : isBadInput i = true
          · rcases inputToText_true_bad i hbi with ⟨e, he⟩
            rw [he]
            simp [checkBoolOpt, exceptIsOk, hbi]
          · rcases inputToText_good true i (by simpa using hbi) with ⟨s, hs⟩
            rw [hs]
            have hloc2 : isBadLocaleVal (resolveOpt o.locale .undef) = false := by
              simpa using hloc
            have hbi2 : isBadInput i = false := by simpa using hbi
            simp [checkBoolOpt, exceptIsOk, camelThrowingBadOption, isBoolVal, hb, hb2, hloc2, hbi2]
        · have hnd2 : isBoolVal (resolveOpt o.normalizeDiacritics (.boolv false)) = false := by
            simpa using hnd
          rw [checkBoolOpt_true_bad _ _ hnd2]
          simp [checkBoolOpt, exceptIsOk, camelThrowingBadOption, hnd2]
    · have hpa2 : isBoolVal (resolveOpt o.preserveAcronyms (.boolv false)) = false := by
        simpa using hpa
      rw [checkBoolOpt_true_bad _ _ hpa2]
      simp [exceptIsOk, camelThrowingBadOption, hpa2]
  · have ht2 : effThrow o = false := by simpa using ht
    rw [ht2]
    rw [checkBoolOpt_false, checkBoolOpt_false]
    rcases checkLocaleOpt_ok_of_false (resolveOpt o.locale .undef) with ⟨l, hl⟩
    rw [hl]
    rcases inputToText_ok_of_false i with ⟨r, hr⟩
    rw [hr]
    cases r <;> simp [exceptIsOk]

theorem kebab_isOk_eq (i : JsInputVal) (o : JsOptionsObj) :
    exceptIsOk (Kebab.toKebabCaseJS i o) =
      !(effThrow o && (kdThrowingBadOption o || isBadInput i)) := by
  have htoi : jsTruthy (resolveOpt o.throwOnInvalid (.boolv false)) = effThrow o := rfl
  simp only [Kebab.toKebabCaseJS, htoi]
  by_cases ht : effThrow o = true
  · rw [ht]
    by_cases hloc : isBadLocaleVal (resolveOpt o.locale .undef) = true
    · rw [checkLocaleOpt_true_bad _ hloc]
      simp [exceptIsOk, kdThrowingBadOption, hloc]
    · rcases checkLocaleOpt_good true _ (by simpa using hloc) with ⟨l, hl⟩
      rw [hl]
      by_cases hbi : isBadInput i = true
      · rcases inputToText_true_bad i hbi with ⟨e, he⟩
        rw [he]
        simp [exceptIsOk, hbi]
      · rcases inputToText_good true i (by simpa using hbi) with ⟨s, hs⟩
        rw [hs]
        simp only [exceptIsOk, kdThrowingBadOption]
        simp [(by simpa using hloc : isBadLocaleVal (resolveOpt o.locale .undef) = false), hbi]
  · have ht2 : effThrow o = false := by simpa using ht
    rw [ht2]
    rcases checkLocaleOpt_ok_of_false (resolveOpt o.locale .undef) with ⟨l, hl⟩
    rw [hl]
    rcases inputToText_ok_of_false i with ⟨r, hr⟩
    rw [hr]
    cases r <;> simp [exceptIsOk]

theorem dot_isOk_eq (i : JsInputVal) (o : JsOptionsObj) :
    exceptIsOk (Dot.toDotCaseJS i o) =
      !(effThrow o && (kdThrowingBadOption o || isBadInput i)) := by
  have hmap := (c8_dot_equals_kebab_with_dot_joiner).2
  have heq : Dot.toDotCaseJS i o = (Kebab.toKebabCaseJS i o).map replaceDashDot := by
    simp only [Dot.toDotCaseJS, Kebab.toKebabCaseJS]
    cases hloc : checkLocaleOpt (jsTruthy (resolveOpt o.throwOnInvalid (.boolv false)))
        (resolveOpt o.locale .undef) with
    | error e => rfl
    | ok loc =>
      cases hinp : inputToText (jsTruthy (resolveOpt o.throwOnInvalid (.boolv false))) i with
      | error e => rfl
      | ok os =>
        cases os with
        | none => rfl
        | some s =>
          simp only [Except.map]
          rw [dot_core_eq_replace_kebab]
  rw [heq, ← kebab_isOk_eq]
  cases Kebab.toKebabCaseJS i o <;> rfl

theorem camel_bad_input_silent_empty (i : JsInputVal) (o : JsOptionsObj)
    (h1 : effThrow o = false) (h2 : isBadInput i = true) :
    Camel.toCamelCaseJS i o = .ok [] := by
  have htoi : jsTruthy (resolveOpt o.throwOnInvalid (.boolv false)) = false := h1
  simp only [Camel.toCamelCaseJS, htoi]
  rw [checkBoolOpt_false, checkBoolOpt_false]
  rcases checkLocaleOpt_ok_of_false (resolveOpt o.locale .undef) with ⟨l, hl⟩
  rw [hl, inputToText_false_bad i h2]

theorem kebab_bad_input_silent_empty (i : JsInputVal) (o : JsOptionsObj)
    (h1 : effThrow o = false) (h2 : isBadInput i = true) :
    Kebab.toKebabCaseJS i o = .ok [] := by
  have htoi : jsTruthy (resolveOpt o.throwOnInvalid (.boolv false)) = false := h1
  simp only [Kebab.toKebabCaseJS, htoi]
  rcases checkLocaleOpt_ok_of_false (resolveOpt o.locale .undef) with ⟨l, hl⟩
  rw [hl, inputToText_false_bad i h2]

theorem dot_bad_input_silent_empty (i : JsInputVal) (o : JsOptionsObj)
    (h1 : effThrow o = false) (h2 : isBadInput i = true) :
    Dot.toDotCaseJS i o = .ok [] := by
  have htoi : jsTruthy (resolveOpt o.throwOnInvalid (.boolv false)) = false := h1
  simp only [Dot.toDotCaseJS, htoi]
  rcases checkLocaleOpt_ok_of_false (resolveOpt o.locale .undef) with ⟨l, hl⟩
  rw [hl, inputToText_false_bad i h2]

/-- C2 counterexample: wrong-kind option values for the silently coerced
options do NOT raise even with `throwOnInvalid=true`: kebab with a string
`normalizeDiacritics` and camel with a string `preserveNumbers` both
return a successful result, contradicting "raises ... exactly when
`throwOnInvalid` is true and ... some option value has the wrong kind".
(The coerced value is the option's truthiness, not its default: the truthy
string turns `normalizeDiacritics` on.) -/
theorem c2_counterexample_coerced_option_does_not_throw :
    Kebab.toKebabCaseJS (.strv ("a".toList))
      ⟨.absent, .absent, .strv ("x".toList), .boolv true, .absent, .absent⟩ =
      .ok ("a".toList) ∧
    Camel.toCamelCaseJS (.strv ("a".toList))
      ⟨.absent, .absent, .absent, .boolv true, .strv ("x".toList), .absent⟩ =
      .ok ("a".toList) ∧
    isBoolVal (.strv ("x".toList)) = false := by
  exact ⟨by rfl, by rfl, by rfl⟩

/-- C2 as amended: a converter call raises a `TypeError` (message naming
the offending field) exactly when the effective `throwOnInvalid` switch is
truthy and either the input is invalid (nullish or neither string nor
array) or one of the THROWING option validations fails - for camel a
non-boolean `preserveAcronyms` or `normalizeDiacritics` or a non-nullish
non-string `locale`; for kebab/dot only the locale check.  The remaining
wrong-kind option values (`throwOnInvalid`, `preserveNumbers`,
`pascalCase`, and `normalizeDiacritics` for kebab/dot) are always coerced
to their truthiness, a bad locale degrades to absent, and - when not
throwing - an invalid input yields the empty string; a raised error
returns no output. -/
theorem c2_error_characterization :
    ∀ (i : JsInputVal) (o : JsOptionsObj),
      (exceptIsOk (Camel.toCamelCaseJS i o) = false ↔
        effThrow o = true ∧ (camelThrowingBadOption o || isBadInput i) = true) ∧
      (exceptIsOk (Kebab.toKebabCaseJS i o) = false ↔
        effThrow o = true ∧ (kdThrowingBadOption o || isBadInput i) = true) ∧
      (exceptIsOk (Dot.toDotCaseJS i o) = false ↔
        effThrow o = true ∧ (kdThrowingBadOption o || isBadInput i) = true) ∧
      (effThrow o = false → isBadInput i = true →
        Camel.toCamelCaseJS i o = .ok [] ∧ Kebab.toKebabCaseJS i o = .ok [] ∧
          Dot.toDotCaseJS i o = .ok []) := by
  intro i o
  refine ⟨?_, ?_, ?_, ?_⟩
  · rw [camel_isOk_eq]
    cases h1 : effThrow o <;> cases h2 : camelThrowingBadOption o || isBadInput i <;> simp
  · rw [kebab_isOk_eq]
    cases h1 : effThrow o <;> cases h2 : kdThrowingBadOption o || isBadInput i <;> simp
  · rw [dot_isOk_eq]
    cases h1 : effThrow o <;> cases h2 : kdThrowingBadOption o || isBadInput i <;> simp
  · intro h1 h2
    exact ⟨camel_bad_input_silent_empty i o h1 h2, kebab_bad_input_silent_empty i o h1 h2,
      dot_bad_input_silent_empty i o h1 h2⟩

/-- Witness for `c2_error_characterization` at the concrete call
`toKebabCase(null, {})`: not throwing, invalid input, empty output. -/
theorem c2_error_characterization_witness :
    Kebab.toKebabCaseJS .nullish absentOptions = .ok [] :=
  ((c2_error_characterization .nullish absentOptions).2.2.2 (by rfl) (by rfl)).2.1

theorem inputToText_arrv_eq_strv (toi : Bool) (es : List JsElemVal) :
    inputToText toi (.arrv es) =
      inputToText toi (.strv (joinWithSpace (es.map elemToStr))) := rfl

/-- C7: for every converter an array input is joined with single spaces
after converting each element to text (nullish elements become empty
text, any other non-string element contributes its `String(...)`
rendering), so the call equals the call on the joined string; and an
array is never rejected because of a non-textual element, even with
`throwOnInvalid=true` (the array branch runs before the input-kind check
and converts every element). -/
theorem c7_array_inputs_joined_never_rejected :
    ∀ (es : List JsElemVal) (o : JsOptionsObj),
      Camel.toCamelCaseJS (.arrv es) o =
        Camel.toCamelCaseJS (.strv (joinWithSpace (es.map elemToStr))) o ∧
      Kebab.toKebabCaseJS (.arrv es) o =
        Kebab.toKebabCaseJS (.strv (joinWithSpace (es.map elemToStr))) o ∧
      Dot.toDotCaseJS (.arrv es) o =
        Dot.toDotCaseJS (.strv (joinWithSpace (es.map elemToStr))) o ∧
      exceptIsOk (Camel.toCamelCaseJS (.arrv es)
        ⟨.absent, .absent, .absent, .boolv true, .absent, .absent⟩) = true ∧
      exceptIsOk (Kebab.toKebabCaseJS (.arrv es)
        ⟨.absent, .absent, .absent, .boolv true, .absent, .absent⟩) = true ∧
      exceptIsOk (Dot.toDotCaseJS (.arrv es)
        ⟨.absent, .absent, .absent, .boolv true, .absent, .absent⟩) = true := by
  intro es o
  refine ⟨?_, ?_, ?_, by rfl, by rfl, by rfl⟩
  · simp only [Camel.toCamelCaseJS]
    rw [inputToText_arrv_eq_strv]
  · simp only [Kebab.toKebabCaseJS]
    rw [inputToText_arrv_eq_strv]
  · simp only [Dot.toDotCaseJS]
    rw [inputToText_arrv_eq_strv]

theorem collapseSeparators_append_of_nosep (w l : List Char)
    (hw : ∀ c ∈ w, isSepChar c = false) :
    collapseSeparators (w ++ l) = w ++ collapseSeparators l := by
  induction w with
  | nil => rfl
  | cons c w2 ih =>
    simp only [List.cons_append, collapseSeparators, List.append_eq]
    rw [ih (fun d hd => hw d (List.mem_cons_of_mem c hd))]
    rw [if_neg (by simp [hw c (by simp)])]

theorem collapseSpaceRuns_append_of_nospace (w l : List Char)
    (hw : ∀ c ∈ w, isJsSpace c = false) :
    collapseSpaceRuns (w ++ l) = w ++ collapseSpaceRuns l := by
  induction w with
  | nil => rfl
  | cons c w2 ih =>
    simp only [List.cons_append, collapseSpaceRuns, List.append_eq]
    rw [ih (fun d hd => hw d (List.mem_cons_of_mem c hd))]
    rw [if_neg (by simp [hw c (by simp)])]

theorem collapseSeparators_eq_self_of_nosep (w : List Char)
    (hw : ∀ c ∈ w, isSepChar c = false) : collapseSeparators w = w := by
  have h := collapseSeparators_append_of_nosep w [] hw
  rw [List.append_nil] at h
  rw [h, show collapseSeparators ([] : List Char) = [] from rfl, List.append_nil]

theorem collapseSpaceRuns_eq_self_of_nospace (w : List Char)
    (hw : ∀ c ∈ w, isJsSpace c = false) : collapseSpaceRuns w = w := by
  have h := collapseSpaceRuns_append_of_nospace w [] hw
  rw [List.append_nil] at h
  rw [h, show collapseSpaceRuns ([] : List Char) = [] from rfl, List.append_nil]

theorem collapseSeparators_cons_sep (j c : Char) (l tl : List Char)
    (hj : isSepChar j = true) (hl : collapseSeparators l = c :: tl) (hc : c ≠ ' ') :
    collapseSeparators (j :: l) = ' ' :: collapseSeparators l := by
  simp only [collapseSeparators]
  rw [if_pos hj, hl]
  rw [if_neg (by simp [hc])]

theorem collapseSpaceRuns_cons_space (c : Char) (l tl : List Char)
    (hl : collapseSpaceRuns l = c :: tl) (hc : c ≠ ' ') :
    collapseSpaceRuns (' ' :: l) = ' ' :: collapseSpaceRuns l := by
  simp only [collapseSpaceRuns]
  rw [if_pos (by simp [isJsSpace]), hl]
  rw [if_neg (by simp [hc])]

theorem intercalate_head_shape (j c : Char) (x2 : List Char) (rest : List (List Char)) :
    ∃ tl, List.intercalate [j] ((c :: x2) :: rest) = c :: tl := by
  cases rest with
  | nil => exact ⟨x2, intercalate_single_eq [j] (c :: x2)⟩
  | cons y ys =>
    rw [intercalate_cons2_eq]
    exact ⟨x2 ++ [j] ++ List.intercalate [j] (y :: ys), by simp⟩

theorem collapseSeparators_intercalate (j : Char) (hjsep : isSepChar j = true)
    (ws : List (List Char))
    (hws : ∀ w ∈ ws, w ≠ [] ∧ ∀ c ∈ w, keepChar c = true ∧ c.toNat ≠ 32) :
    collapseSeparators (List.intercalate [j] ws) = List.intercalate [' '] ws := by
  induction ws with
  | nil => rfl
  | cons w ws2 ih =>
    have hnosepw : ∀ c ∈ w, isSepChar c = false := by
      intro c hc
      exact isSepChar_eq_false_of_keep c (((hws w (by simp)).2 c hc).1)
        (((hws w (by simp)).2 c hc).2)
    cases ws2 with
    | nil =>
      rw [intercalate_single_eq, intercalate_single_eq]
      exact collapseSeparators_eq_self_of_nosep w hnosepw
    | cons x rest =>
      have hws2 : ∀ v ∈ x :: rest, v ≠ [] ∧ ∀ c ∈ v, keepChar c = true ∧ c.toNat ≠ 32 :=
        fun v hv => hws v (List.mem_cons_of_mem w hv)
      have hx := (hws x (by simp)).1
      obtain ⟨c, x2, rfl⟩ : ∃ c x2, x = c :: x2 := by
        cases hxs : x with
        | nil => exact absurd hxs hx
        | cons c x2 => exact ⟨c, x2, rfl⟩
      have hih := ih hws2
      obtain ⟨tl2, htl2⟩ := intercalate_head_shape ' ' c x2 rest
      have hcne : c ≠ ' ' := by
        intro h
        have h2 := ((hws (c :: x2) (by simp)).2 c (by simp)).2
        rw [h] at h2
        exact h2 rfl
      rw [intercalate_cons2_eq, intercalate_cons2_eq, List.append_assoc, List.append_assoc]
      rw [collapseSeparators_append_of_nosep w _ hnosepw]
      congr 1
      simp only [List.singleton_append]
      rw [collapseSeparators_cons_sep j c _ tl2 hjsep (by rw [hih, htl2]) hcne]
      rw [hih]

theorem collapseSpaceRuns_intercalate (ws : List (List Char))
    (hws : ∀ w ∈ ws, w ≠ [] ∧ ∀ c ∈ w, keepChar c = true ∧ c.toNat ≠ 32) :
    collapseSpaceRuns (List.intercalate [' '] ws) = List.intercalate [' '] ws := by
  induction ws with
  | nil => rfl
  | cons w ws2 ih =>
    have hnospw : ∀ c ∈ w, isJsSpace c = false := by
      intro c hc
      exact isJsSpace_eq_false_of_sep c
        (isSepChar_eq_false_of_keep c (((hws w (by simp)).2 c hc).1)
          (((hws w (by simp)).2 c hc).2))
    cases ws2 with
    | nil =>
      rw [intercalate_single_eq]
      exact collapseSpaceRuns_eq_self_of_nospace w hnospw
    | cons x rest =>
      have hws2 : ∀ v ∈ x :: rest, v ≠ [] ∧ ∀ c ∈ v, keepChar c = true ∧ c.toNat ≠ 32 :=
        fun v hv => hws v (List.mem_cons_of_mem w hv)
      have hx := (hws x (by simp)).1
      obtain ⟨c, x2, rfl⟩ : ∃ c x2, x = c :: x2 := by
        cases hxs : x with
        | nil => exact absurd hxs hx
        | cons c x2 => exact ⟨c, x2, rfl⟩
      have hih := ih hws2
      obtain ⟨tl2, htl2⟩ := intercalate_head_shape ' ' c x2 rest
      have hcne : c ≠ ' ' := by
        intro h
        have h2 := ((hws (c :: x2) (by simp)).2 c (by simp)).2
        rw [h] at h2
        exact h2 rfl
      rw [intercalate_cons2_eq, List.append_assoc]
      rw [collapseSpaceRuns_append_of_nospace w _ hnospw]
      congr 1
      simp only [List.singleton_append]
      rw [collapseSpaceRuns_cons_space c _ tl2 (by rw [hih, htl2]) hcne]
      rw [hih]

theorem filterKeep_intercalate_space (ws : List (List Char))
    (hws : ∀ w ∈ ws, w ≠ [] ∧ ∀ c ∈ w, keepChar c = true ∧ c.toNat ≠ 32) :
    filterKeep (List.intercalate [' '] ws) = List.intercalate [' '] ws := by
  simp only [filterKeep]
  rw [List.filter_eq_self]
  intro c hc
  rcases mem_intercalate_char ' ' ws c hc with ⟨w, hw, hcw⟩ | h
  · exact ((hws w hw).2 c hcw).1
  · rw [h]
    rfl

theorem getLast?_intercalate_prop (j : Char) (P : Char → Prop) (ws : List (List Char))
    (hws : ∀ w ∈ ws, w ≠ [] ∧ ∀ c ∈ w, P c) :
    ∀ c, (List.intercalate [j] ws).getLast? = some c → P c := by
  induction ws with
  | nil =>
    intro c hc
    rw [intercalate_nil_eq] at hc
    simp at hc
  | cons w ws2 ih =>
    cases ws2 with
    | nil =>
      intro c hc
      rw [intercalate_single_eq] at hc
      exact (hws w (by simp)).2 c (List.mem_of_mem_getLast? hc)
    | cons x rest =>
      intro c hc
      rw [intercalate_cons2_eq, List.append_assoc, List.getLast?_append] at hc
      have hi : List.intercalate [j] (x :: rest) ≠ [] :=
        intercalate_cons_ne_nil j x rest (hws x (by simp)).1
      rcases Option.isSome_iff_exists.mp (List.getLast?_isSome.mpr hi) with ⟨a, ha⟩
      rw [List.getLast?_append, ha] at hc
      simp only [Option.or_some, Option.some.injEq] at hc
      rw [← hc]
      exact ih (fun v hv => hws v (List.mem_cons_of_mem w hv)) a ha

theorem dropWhile_eq_self_of_head (p : Char → Bool) (l : List Char)
    (h : ∀ c, l.head? = some c → p c = false) : l.dropWhile p = l := by
  cases l with
  | nil => rfl
  | cons a as =>
    rw [List.dropWhile_cons, if_neg]
    simp [h a rfl]

theorem trimSpaces_intercalate_space (ws : List (List Char))
    (hws : ∀ w ∈ ws, w ≠ [] ∧ ∀ c ∈ w, keepChar c = true ∧ c.toNat ≠ 32) :
    trimSpaces (List.intercalate [' '] ws) = List.intercalate [' '] ws := by
  have hgoodsp : ∀ w ∈ ws, w ≠ [] ∧ ∀ c ∈ w, isJsSpace c = false := by
    intro w hw
    refine ⟨(hws w hw).1, fun c hc => ?_⟩
    exact isJsSpace_eq_false_of_sep c
      (isSepChar_eq_false_of_keep c (((hws w hw).2 c hc).1) (((hws w hw).2 c hc).2))
  have h1 : List.dropWhile isJsSpace (List.intercalate [' '] ws) =
      List.intercalate [' '] ws := by
    apply dropWhile_eq_self_of_head
    intro c hc
    cases ws with
    | nil => rw [intercalate_nil_eq] at hc; simp at hc
    | cons w ws2 =>
      rw [head?_intercalate_cons ' ' w ws2 (hws w (by simp)).1] at hc
      exact (hgoodsp w (by simp)).2 c (List.mem_of_mem_head? hc)
  have h2 : List.dropWhile isJsSpace ((List.intercalate [' '] ws).reverse) =
      (List.intercalate [' '] ws).reverse := by
    apply dropWhile_eq_self_of_head
    intro c hc
    rw [List.head?_reverse] at hc
    exact getLast?_intercalate_prop ' ' (fun d => isJsSpace d = false) ws hgoodsp c hc
  simp only [trimSpaces]
  rw [h1, h2, List.reverse_reverse]

theorem splitOnSpace_append_word (w l : List Char) (hw : ∀ c ∈ w, c ≠ ' ')
    (t : List Char) (ts : List (List Char)) (hl : splitOnSpace l = t :: ts) :
    splitOnSpace (w ++ l) = (w ++ t) :: ts := by
  induction w with
  | nil => simpa using hl
  | cons c w2 ih =>
    simp only [List.cons_append, splitOnSpace, List.append_eq]
    rw [ih (fun d hd => hw d (List.mem_cons_of_mem c hd))]
    simp [hw c (by simp)]

theorem splitOnSpace_spacefree (w : List Char) (hw : ∀ c ∈ w, c ≠ ' ') :
    splitOnSpace w = [w] := by
  have h := splitOnSpace_append_word w [] hw [] [] rfl
  simpa using h

theorem splitOnSpace_intercalate (ws : List (List Char))
    (hws : ∀ w ∈ ws, w ≠ [] ∧ ∀ c ∈ w, c ≠ ' ') (hne : ws ≠ []) :
    splitOnSpace (List.intercalate [' '] ws) = ws := by
  induction ws with
  | nil => exact absurd rfl hne
  | cons w ws2 ih =>
    cases ws2 with
    | nil =>
      rw [intercalate_single_eq]
      exact splitOnSpace_spacefree w (hws w (by simp)).2
    | cons x rest =>
      rw [intercalate_cons2_eq, List.append_assoc]
      have hih := ih (fun v hv => hws v (List.mem_cons_of_mem w hv)) (by simp)
      have hmid : splitOnSpace ([' '] ++ List.intercalate [' '] (x :: rest)) =
          [] :: x :: rest := by
        simp only [List.singleton_append, splitOnSpace, List.append_eq, List.nil_append]
        rw [hih]
        simp
      have := splitOnSpace_append_word w _ (hws w (by simp)).2 [] (x :: rest) hmid
      rw [this]
      simp

theorem rawTokens_intercalate (j : Char) (hjsep : isSepChar j = true)
    (ws : List (List Char))
    (hws : ∀ w ∈ ws, w ≠ [] ∧ ∀ c ∈ w, keepChar c = true ∧ c.toNat ≠ 32) :
    rawTokens false (List.intercalate [j] ws) = ws := by
  have hpre : preprocess false (List.intercalate [j] ws) = List.intercalate [' '] ws := by
    simp only [preprocess, nfcNormalize, if_neg (Bool.false_ne_true)]
    rw [collapseSeparators_intercalate j hjsep ws hws,
      filterKeep_intercalate_space ws hws, trimSpaces_intercalate_space ws hws,
      collapseSpaceRuns_intercalate ws hws]
  simp only [rawTokens, hpre]
  cases ws with
  | nil => rw [intercalate_nil_eq]; rfl
  | cons w ws2 =>
    rw [if_neg (by
      simp only [List.isEmpty_eq_true]
      exact intercalate_cons_ne_nil ' ' w ws2 (hws w (by simp)).1)]
    exact splitOnSpace_intercalate (w :: ws2)
      (fun v hv => ⟨(hws v hv).1,
        fun c hc h32 => ((hws v hv).2 c hc).2 (by rw [h32]; rfl)⟩) (by simp)

theorem kebab_buildWords_fixpoint (ws : List (List Char))
    (hws : ∀ w ∈ ws, w ≠ [] ∧ (∀ c ∈ w, keepChar c = true ∧ c.toNat ≠ 32) ∧
      (isAllDigits w = true ∨
        (List.Chain' (fun a b => kdBoundary a b = false) w ∧ lowerStr w = w))) :
    Kebab.buildWords ws true = ws := by
  induction ws with
  | nil => rfl
  | cons w ws2 ih =>
    have hW := hws w (by simp)
    have hone : Kebab.buildWords [w] true = [w] := by
      simp only [Kebab.buildWords, List.flatMap_cons, List.flatMap_nil, List.append_nil]
      rw [if_neg (by simp [hW.1])]
      by_cases hd : isAllDigits w = true
      · rw [if_pos hd]
        simp
      · rw [if_neg hd]
        rcases hW.2.2 with h | ⟨hch, hlow⟩
        · exact absurd h hd
        · rw [kebab_split_eq_single w hW.1 hch]
          rw [List.filter_cons, if_pos (by simp [hW.1])]
          simp only [List.filter_nil, List.map_cons, List.map_nil]
          rw [hlow]
    have hcons : Kebab.buildWords (w :: ws2) true =
        Kebab.buildWords [w] true ++ Kebab.buildWords ws2 true := by
      simp [Kebab.buildWords]
    rw [hcons, hone, ih (fun v hv => hws v (List.mem_cons_of_mem w hv))]
    rfl

/-- C5 counterexample: camel conversion is NOT idempotent even on plain
ASCII input: `"a b c"` converts to `"aBC"`, but converting `"aBC"` again
yields `"aBc"` (re-tokenization keeps `BC` as one token, which is then
lowercased past its first letter), so
`convert(convert(x, camel), camel) ≠ convert(x, camel)`. -/
theorem c5_counterexample_camel_not_idempotent :
    Camel.toCamelCaseJS (.strv ("a b c".toList)) absentOptions = .ok ("aBC".toList) ∧
    Camel.toCamelCaseJS (.strv ("aBC".toList)) absentOptions = .ok ("aBc".toList) ∧
    ("aBc".toList ≠ "aBC".toList) := by
  exact ⟨by rfl, by rfl, by decide⟩

/-- C5 as amended: with default options, conversion is idempotent for the
kebab and dot styles on ASCII inputs (re-running on the already-joined
lowercase output reproduces the same token sequence); for camel the
property fails, see the counterexample.  The last two conjuncts link the
string-level cores used here to the public entry points called with no
options. -/
theorem c5_kebab_dot_idempotent_on_ascii :
    ∀ s : List Char, allAscii s = true →
      Kebab.toKebabCase (Kebab.toKebabCase s defaultKdOptions) defaultKdOptions =
        Kebab.toKebabCase s defaultKdOptions ∧
      Dot.toDotCase (Dot.toDotCase s defaultDotOptions) defaultDotOptions =
        Dot.toDotCase s defaultDotOptions ∧
      Kebab.toKebabCaseJS (.strv s) absentOptions =
        .ok (Kebab.toKebabCase s defaultKdOptions) ∧
      Dot.toDotCaseJS (.strv s) absentOptions =
        .ok (Dot.toDotCase s defaultDotOptions) := by
  intro s _hascii
  have hgood := kebab_words_good_of_rawTokens false true s
  have hws : ∀ w ∈ Kebab.buildWords (rawTokens false s) true,
      w ≠ [] ∧ ∀ c ∈ w, keepChar c = true ∧ c.toNat ≠ 32 :=
    fun w hw => ⟨(hgood w hw).1, (hgood w hw).2.1⟩
  refine ⟨?_, ?_, by rfl, by rfl⟩
  · show Kebab.toKebabCase
      (List.intercalate ['-'] (Kebab.buildWords (rawTokens false s) true))
      defaultKdOptions = _
    show List.intercalate ['-'] (Kebab.buildWords (rawTokens false
      (List.intercalate ['-'] (Kebab.buildWords (rawTokens false s) true))) true) = _
    rw [rawTokens_intercalate '-' (by decide) _ hws]
    rw [kebab_buildWords_fixpoint _ hgood]
    rfl
  · show Dot.toDotCase
      (List.intercalate ['.'] (Dot.buildWords (rawTokens false s) true))
      defaultDotOptions = _
    show List.intercalate ['.'] (Dot.buildWords (rawTokens false
      (List.intercalate ['.'] (Dot.buildWords (rawTokens false s) true))) true) = _
    rw [dot_buildWords_eq_kebab, dot_buildWords_eq_kebab]
    rw [rawTokens_intercalate '.' (by decide) _ hws]
    rw [kebab_buildWords_fixpoint _ hgood]
    show List.intercalate ['.'] (Kebab.buildWords (rawTokens false s) true) =
      List.intercalate ['.'] (Dot.buildWords (rawTokens false s) true)
    rw [dot_buildWords_eq_kebab]

/-- Witness for `c5_kebab_dot_idempotent_on_ascii` at the concrete ASCII
input `"A1 b"`. -/
theorem c5_kebab_dot_idempotent_on_ascii_witness :
    Kebab.toKebabCase (Kebab.toKebabCase ("A1 b".toList) defaultKdOptions)
      defaultKdOptions = Kebab.toKebabCase ("A1 b".toList) defaultKdOptions :=
  (c5_kebab_dot_idempotent_on_ascii ("A1 b".toList) (by decide)).1

theorem kebab_split_ne_nil (t : List Char) :
    Kebab.splitOnCaseAndNumberTransitions t ≠ [] := by
  cases t with
  | nil => simp [Kebab.splitOnCaseAndNumberTransitions]
  | cons c cs => exact kebab_splitGo_ne_nil cs [c] c

theorem camel_split_ne_nil (t : List Char) (pa : Bool) :
    Camel.splitOnCaseAndNumberTransitions t pa ≠ [] := by
  cases t with
  | nil => simp [Camel.splitOnCaseAndNumberTransitions]
  | cons c cs => exact camel_splitGo_ne_nil cs [c] c

/-- C9 counterexample: the kebab/dot splitter DOES place a boundary next
to a non-ASCII character: in the token `1É` the digit rule fires between
the ASCII digit `1` and the non-ASCII letter `É` (`É` is simply "not an
ASCII digit"), so boundaries are not introduced "only between characters
in the ASCII ranges a-z, A-Z, 0-9". -/
theorem c9_counterexample_boundary_next_to_non_ascii :
    Kebab.splitOnCaseAndNumberTransitions ("1É".toList) = [['1'], ['É']] ∧
    Camel.splitOnCaseAndNumberTransitions ("1É".toList) false = [['1'], ['É']] ∧
    isAsciiAlnum 'É' = false := by
  exact ⟨by decide, by decide, by decide⟩

/-- C9 as amended: character classification in the splitters is
ASCII-only.  A pair of characters both outside the ASCII alphanumeric
ranges never produces a boundary (so non-ASCII cased letters such as `É`
are never classified as letters and never trigger a case transition);
every boundary involves at least one ASCII-alphanumeric character; the
pure-number test matches only all-ASCII-digit tokens, so a token
containing a non-ASCII digit (e.g. Arabic-Indic digits) is never a
pure-number token and is never dropped under `preserveNumbers=false`. -/
theorem c9_ascii_only_classification :
    (∀ a b : Char, isAsciiAlnum a = false → isAsciiAlnum b = false →
      kdBoundary a b = false) ∧
    (∀ (a b : Char) (n : Option Char), isAsciiAlnum a = false → isAsciiAlnum b = false →
      camelBoundary a b n = false) ∧
    (∀ a b : Char, kdBoundary a b = true →
      isAsciiAlnum a = true ∨ isAsciiAlnum b = true) ∧
    (∀ (t : List Char) (c : Char), c ∈ t → isAsciiDigit c = false →
      isAllDigits t = false) ∧
    (∀ t : List Char, t ≠ [] → (∃ c ∈ t, isAsciiDigit c = false) →
      Kebab.buildWords [t] false ≠ [] ∧ Dot.buildWords [t] false ≠ [] ∧
        ∀ pa : Bool, Camel.buildWords [t] pa false ≠ []) := by
  have h1 : ∀ a b : Char, isAsciiAlnum a = false → isAsciiAlnum b = false →
      kdBoundary a b = false := by
    intro a b ha hb
    simp only [isAsciiAlnum, Bool.or_eq_false_iff] at ha hb
    simp [kdBoundary, ha.1.2, ha.2, hb.1.1, hb.2]
  have h4 : ∀ (t : List Char) (c : Char), c ∈ t → isAsciiDigit c = false →
      isAllDigits t = false := by
    intro t c hc hdig
    by_contra h
    have h2 : isAllDigits t = true := by simpa using h
    simp only [isAllDigits, Bool.and_eq_true, List.all_eq_true] at h2
    rw [h2.2 c hc] at hdig
    exact absurd hdig (by simp)
  refine ⟨h1, ?_, ?_, h4, ?_⟩
  · intro a b n ha hb
    simp only [isAsciiAlnum, Bool.or_eq_false_iff] at ha hb
    simp [camelBoundary, ha.1.1, ha.1.2, ha.2, hb.1.1, hb.2]
  · intro a b hbd
    by_contra h
    push_neg at h
    have ha : isAsciiAlnum a = false := by simpa using h.1
    have hb : isAsciiAlnum b = false := by simpa using h.2
    rw [h1 a b ha hb] at hbd
    exact absurd hbd (by simp)
  · intro t ht hx
    rcases hx with ⟨c, hc, hdig⟩
    have hdt : isAllDigits t = false := h4 t c hc hdig
    have hemp : t.isEmpty = false := by simpa using ht
    have hkebab : Kebab.buildWords [t] false ≠ [] := by
      simp only [Kebab.buildWords, List.flatMap_cons, List.flatMap_nil, List.append_nil]
      rw [if_neg (by simp [hemp]), if_neg (by simp [hdt])]
      rw [List.filter_eq_self.mpr
        (fun p hp => by simp [kebab_mem_split_ne_nil t ht p hp])]
      simp [kebab_split_ne_nil t]
    refine ⟨hkebab, by rwa [dot_buildWords_eq_kebab], ?_⟩
    intro pa
    simp only [Camel.buildWords, List.flatMap_cons, List.flatMap_nil, List.append_nil]
    rw [if_neg (by simp [hemp]), if_neg (by simp [hdt])]
    rw [List.filter_eq_self.mpr
      (fun p hp => by simp [camel_mem_split_ne_nil t pa ht p hp])]
    exact camel_split_ne_nil t pa

/-- Witness for `c9_ascii_only_classification`: no boundary between the
non-ASCII pair `É`,`é`, and a token of one Arabic-Indic digit survives
`preserveNumbers=false` in every converter. -/
theorem c9_ascii_only_classification_witness :
    kdBoundary 'É' 'é' = false ∧ Kebab.buildWords [['٣']] false ≠ [] :=
  ⟨c9_ascii_only_classification.1 'É' 'é' (by decide) (by decide),
    (c9_ascii_only_classification.2.2.2.2 ['٣'] (by decide)
      ⟨'٣', by decide, by decide⟩).1⟩
